import Mathlib

/-!
# Verification of the globus-registered-api OpenAPI target-extraction pipeline

A shallow embedding of the core of `globus_registered_api`:
the target specifier (`domain.py`), the selector (`openapi/selector.py`),
the reducer (`openapi/reducer.py`), the loader's content dispatch
(`openapi/loader.py`) and the security-scheme enricher
(`openapi/enchricher/`).  Python strings are `String`, JSON-like
documents are an inductive `Json` tree, Python dicts are association
lists (first-match lookup, insertion order preserved), and Python
exceptions are `Except` values.
-/

namespace GRA

/-- Python `\s` whitespace characters (`str.isspace` over ASCII, as used by
the `re` module's `\s` class for ASCII text). -/
def isPyWhitespace (c : Char) : Bool :=
  c = ' ' || c = '\t' || c = '\n' || c = '\x0d' || c = '\x0b' || c = '\x0c'

/-- Python `str.upper` restricted to ASCII (per-character upcasing). -/
def pyUpper (s : String) : String :=
  String.mk (s.toList.map Char.toUpper)

/-- Python `str.lower` restricted to ASCII (per-character downcasing). -/
def pyLower (s : String) : String :=
  String.mk (s.toList.map Char.toLower)

/-- Python `str.rstrip("/")`: remove every trailing `'/'`. -/
def rstripSlashes (s : String) : String :=
  String.mk ((s.toList.reverse.dropWhile (· = '/')).reverse)

/-- First-match association-list lookup, the model of Python `dict.get`. -/
def lookupS {α : Type} : List (String × α) → String → Option α
  | [], _ => none
  | (k, v) :: t, key => if k = key then some v else lookupS t key

/-- Python `dict[k] = v`: replace in place if the key exists, else append. -/
def upsertS {α : Type} : List (String × α) → String → α → List (String × α)
  | [], key, v => [(key, v)]
  | (k, w) :: t, key, v =>
      if k = key then (k, v) :: t else (k, w) :: upsertS t key v

/-- `", ".join(l)`, as used for the selector's error messages. -/
def joinComma : List String → String
  | [] => ""
  | [x] => x
  | x :: y :: t => x ++ ", " ++ joinComma (y :: t)

/-- Naive substring test on character lists (used only to state facts about
error-message contents). -/
def subListAt : List Char → List Char → Bool
  | [], _ => true
  | _ :: _, [] => false
  | n :: ns, h :: hs => (n = h && List.isPrefixOf ns hs) || subListAt (n :: ns) hs

/-- `needle` occurs as a contiguous substring of `hay`. -/
def containsSub (hay needle : String) : Bool :=
  subListAt needle.toList hay.toList

/-! ## The fnmatch glob matcher

`fnmatch.fnmatch` (POSIX, no case folding) translates the pattern into a
regular expression: `*` becomes `.*` (matching any characters including
newlines), `?` becomes `.`, and `[seq]` / `[!seq]` become character
classes.  A `[` with no closing `]` is a literal `[`.  Inside a class, a
leading `!` negates, a `]` immediately after the (optional) `!` is a
member of the class, and `a-b` denotes an inclusive character range. -/

/-- Split a character-class body at its closing `]`; `none` when the class
is unterminated. -/
def scanToClose : List Char → Option (List Char × List Char)
  | [] => none
  | c :: t =>
      if c = ']' then some ([], t)
      else
        match scanToClose t with
        | some (s, r) => some (c :: s, r)
        | none => none

/-- The body of a bracket expression after the optional negation `!`: a
`]` in first position belongs to the class; the class runs to the next
`]`, and an unterminated class returns `none`. -/
def parseClassBody (neg : Bool) (l1 : List Char) :
    Option (Bool × List Char × List Char) :=
  match l1 with
  | ']' :: t =>
      match scanToClose t with
      | some (stuff, rest) => some (neg, ']' :: stuff, rest)
      | none => none
  | _ =>
      match scanToClose l1 with
      | some (stuff, rest) => some (neg, stuff, rest)
      | none => none

/-- Parse a bracket expression (the characters after `[`): returns the
negation flag, the class body, and the remaining pattern. -/
def parseClass (l : List Char) : Option (Bool × List Char × List Char) :=
  match l with
  | '!' :: t => parseClassBody true t
  | _ => parseClassBody false l

/-- Interpret a class body as a list of inclusive ranges (a single
character `c` is the range `c-c`). -/
def classItems : List Char → List (Char × Char)
  | a :: '-' :: b :: rest => (a, b) :: classItems rest
  | a :: rest => (a, a) :: classItems rest
  | [] => []

/-- Character-class membership. -/
def classMatches (items : List (Char × Char)) (c : Char) : Bool :=
  items.any (fun ab => ab.1.toNat ≤ c.toNat && c.toNat ≤ ab.2.toNat)

/-- The glob matcher, with explicit fuel so that it evaluates by
structural recursion.  Every recursive call strictly decreases
`p.length + s.length` (in the bracket case the remaining pattern is a
proper suffix), so fuel `p.length + s.length + 1` always suffices; see
`globMatchF_irrel`. -/
def globMatchF : Nat → List Char → List Char → Bool
  | 0, _, _ => false
  | _ + 1, [], [] => true
  | _ + 1, [], _ :: _ => false
  | fuel + 1, c :: ps, s =>
    if c = '*' then
      globMatchF fuel ps s ||
        (match s with
         | [] => false
         | _ :: s' => globMatchF fuel (c :: ps) s')
    else if c = '?' then
      match s with
      | [] => false
      | _ :: s' => globMatchF fuel ps s'
    else if c = '[' then
      match parseClass ps with
      | some (neg, stuff, rest) =>
          match s with
          | [] => false
          | d :: s' =>
              (xor (classMatches (classItems stuff) d) neg) &&
                globMatchF fuel rest s'
      | none =>
          match s with
          | [] => false
          | d :: s' => (d = '[') && globMatchF fuel ps s'
    else
      match s with
      | [] => false
      | d :: s' => (d = c) && globMatchF fuel ps s'

/-- The glob matcher: does pattern `p` match the whole of `s`? -/
def globMatch (p s : List Char) : Bool :=
  globMatchF (p.length + s.length + 1) p s

/-- `fnmatch.fnmatch(name, pattern)` on POSIX (no case normalization). -/
def fnmatchMatch (name pattern : String) : Bool :=
  globMatch pattern.toList name.toList

/-- Does a string contain any glob metacharacter (`*`, `?`, `[`)? -/
def hasGlobMeta (s : String) : Bool :=
  s.toList.any (fun c => c = '*' || c = '?' || c = '[')

/-! ## JSON-like trees

The reducer works on `model_dump(by_alias=True, exclude_none=True)`
serializations, which are plain nested dict/list/scalar values.  Object
fields are kept as ordered association lists (Python dict order). -/

inductive Json where
  | null : Json
  | bool (b : Bool) : Json
  | num (n : Int) : Json
  | str (s : String) : Json
  | arr (items : List Json) : Json
  | obj (fields : List (String × Json)) : Json

/-- Python truthiness of a JSON-like value (`if self.components:` in
`OpenAPITarget.to_dict`): `None`, `False`, `0`, `""` and empty
containers are falsy. -/
def pyTruthy : Json → Bool
  | .null => false
  | .bool b => b
  | .num n => n != 0
  | .str s => s != ""
  | .arr [] => false
  | .arr (_ :: _) => true
  | .obj [] => false
  | .obj (_ :: _) => true

mutual
/-- `reducer._find_all_refs`: every string stored under a `$ref` or `ref`
key anywhere in the tree (a matching key whose value is not a string is
recursed into, like any other value). -/
def findAllRefs : Json → List String
  | .null => []
  | .bool _ => []
  | .num _ => []
  | .str _ => []
  | .arr items => findAllRefsList items
  | .obj fields => findAllRefsFields fields

def findAllRefsList : List Json → List String
  | [] => []
  | j :: t => findAllRefs j ++ findAllRefsList t

def findAllRefsFields : List (String × Json) → List String
  | [] => []
  | (k, v) :: t =>
      (if k = "$ref" || k = "ref" then
        match v with
        | .str s => [s]
        | _ => findAllRefs v
      else findAllRefs v) ++ findAllRefsFields t
end

/-- `reducer._extract_schema_name`: match
`re.match(r"^#/components/schemas/(.+)$", ref)`.  `.` does not match a
newline and `$` also matches just before one final trailing newline, so
the match succeeds exactly when, after the fixed prefix, the remainder is
a nonempty newline-free name optionally followed by one `'\n'`. -/
def extractSchemaName (ref : String) : Option String :=
  let p := "#/components/schemas/"
  if p.toList.isPrefixOf ref.toList then
    let rest := ref.toList.drop p.toList.length
    let core := if rest.getLast? = some '\n' then rest.dropLast else rest
    if core ≠ [] && core.all (· ≠ '\n') then some (String.mk core)
    else none
  else none

/-! ## Target specifiers (`domain.py`) -/

/-- The eight canonical HTTP verbs, in the order declared in
`domain.py`. -/
def HTTP_METHODS : List String :=
  ["GET", "POST", "PUT", "DELETE", "PATCH", "HEAD", "TRACE", "OPTIONS"]

/-- `domain.TargetSpecifier`: an immutable (method, path pattern,
content-type pattern) identifier.  The dataclass validation performed by
`__post_init__` is modelled separately by `TargetSpecifier.mk?`. -/
structure TargetSpecifier where
  method : String
  path : String
  contentType : String := "*"
  deriving DecidableEq, Repr

/-- Python `path.startswith("/")`: the first character is `'/'`. -/
def startsWithSlash (s : String) : Bool :=
  match s.toList with
  | '/' :: _ => true
  | _ => false

/-- `TargetSpecifier.__post_init__` validation: the method must be one of
the eight canonical verbs and the path must start with `/`.  A failing
check is a raised `ValueError`. -/
def TargetSpecifier.mk? (method path contentType : String) :
    Except String TargetSpecifier :=
  if method ∉ HTTP_METHODS then
    .error ("Invalid HTTP method: " ++ method ++ ". Must be one of: " ++
      joinComma HTTP_METHODS)
  else if ¬ startsWithSlash path then
    .error ("Path must start with '/': " ++ path)
  else
    .ok { method := method, path := path, contentType := contentType }

/-- `TargetSpecifier.create`: upper-case the method, then construct (and
validate). -/
def TargetSpecifier.create (method path : String)
    (contentType : String := "*") : Except String TargetSpecifier :=
  TargetSpecifier.mk? (pyUpper method) path contentType

/-- Python `$` for a non-multiline pattern: the match may end at the end
of the string or just before one final newline. -/
def atPyEnd : List Char → Bool
  | [] => true
  | ['\n'] => true
  | _ => false

/-- A character that the regex class `\S` accepts. -/
def nonWs (c : Char) : Bool := ¬ isPyWhitespace c

/-- The anchored regex
`^(?P<method>[A-Za-z]+)\s+(?P<path>/\S+)(\s+(?P<content_type>\S+))?$`
from `domain.py`, as a deterministic parser (every quantified class is
disjoint from whatever must follow it, so greedy matching never
backtracks).  Returns `(method, path, optional content-type)`. -/
def specifierRegexMatch (value : String) :
    Option (String × String × Option String) :=
  let r0 := value.toList
  let method := r0.takeWhile (fun c => c.isAlpha)
  let r1 := r0.dropWhile (fun c => c.isAlpha)
  if method = [] then none
  else if r1.takeWhile isPyWhitespace = [] then none
  else
    match r1.dropWhile isPyWhitespace with
    | '/' :: r3 =>
      let pathRest := r3.takeWhile nonWs
      let r4 := r3.dropWhile nonWs
      if pathRest = [] then none
      else if atPyEnd r4 then
        some (String.mk method, String.mk ('/' :: pathRest), none)
      else if r4.takeWhile isPyWhitespace = [] then none
      else
        let r5 := r4.dropWhile isPyWhitespace
        let ct := r5.takeWhile nonWs
        let r6 := r5.dropWhile nonWs
        if ct = [] then none
        else if atPyEnd r6 then
          some (String.mk method, String.mk ('/' :: pathRest),
            some (String.mk ct))
        else none
    | _ => none

/-- `TargetSpecifier.load`: parse `"METHOD /path [content-type]"`; an
unmatched string raises `ValueError`, and on success the fields go
through `create` (content-type defaulting to `"*"`). -/
def TargetSpecifier.load (value : String) : Except String TargetSpecifier :=
  match specifierRegexMatch value with
  | none =>
      .error ("Invalid TargetSpecifier string: " ++ value ++
        ". Expected format: 'METHOD /path [content-type]'")
  | some (method, path, ct) =>
      TargetSpecifier.create method path (ct.getD "*")

/-- Modelled from the spec: the repository under `src/` defines no
`to_string` rendering for specifiers (only `load` and `create` exist),
but the spec's round-trip property requires one.  Per the spec's string
form `"METHOD /path [content-type]"` with the content-type "defaulted to
`*` when absent", the default content-type is omitted and any other
content-type is appended after a space. -/
def TargetSpecifier.toStringForm (t : TargetSpecifier) : String :=
  if t.contentType = "*" then t.method ++ " " ++ t.path
  else t.method ++ " " ++ t.path ++ " " ++ t.contentType

/-! ## The OpenAPI document model (`openapi_pydantic` as consumed here)

Only the parts of the pydantic object model that the selector, reducer
and enricher actually read are represented.  The serialized form of an
operation or schema (`model_dump(by_alias=True, exclude_none=True)`) is
carried as data (a `Json` tree) rather than recomputed, since pydantic
serialization itself is outside the embedded code. -/

/-- `oa.OAuthFlow` (the `authorizationCode` flow): endpoint URLs and the
scope table. -/
structure OAuthFlow where
  authorizationUrl : String
  tokenUrl : String
  scopes : List (String × String)
  deriving DecidableEq, Repr

/-- `oa.OAuthFlows`, restricted to the one flow the enricher reads. -/
structure OAuthFlows where
  authorizationCode : Option OAuthFlow
  deriving DecidableEq, Repr

/-- `oa.SecurityScheme`, restricted to the fields the enricher reads. -/
structure SecurityScheme where
  type : String
  flows : Option OAuthFlows
  deriving DecidableEq, Repr

/-- A value of `components.securitySchemes`: a scheme or a `$ref`. -/
inductive SchemeOrRef where
  | scheme (s : SecurityScheme)
  | reference (ref : String)
  deriving DecidableEq, Repr

/-- `oa.SecurityRequirement`: a mapping scheme-name -> scope list. -/
def SecurityRequirement : Type := List (String × List String)

instance : DecidableEq SecurityRequirement := by
  unfold SecurityRequirement; infer_instance

/-- An operation's request body: a `$ref` or concrete content, whose
declared content types are the ordered keys of the `content` mapping. -/
inductive ReqBody where
  | reference (ref : String)
  | body (content : Option (List String))

/-- `oa.Operation`, restricted to the fields read by the selector and
the enricher; `dump` is its
`model_dump(by_alias=True, exclude_none=True)` serialization. -/
structure Operation where
  requestBody : Option ReqBody := none
  security : Option (List SecurityRequirement) := none
  dump : Json := .obj []

/-- `oa.PathItem`: one optional operation per canonical HTTP method. -/
structure PathItem where
  get : Option Operation := none
  put : Option Operation := none
  post : Option Operation := none
  delete : Option Operation := none
  options : Option Operation := none
  head : Option Operation := none
  patch : Option Operation := none
  trace : Option Operation := none

/-- `oa.Server` (only its `url` is read). -/
structure Server where
  url : String
  deriving DecidableEq, Repr

/-- `oa.Components`, restricted to the `schemas` table (each schema kept
in serialized form) and the `securitySchemes` table. -/
structure Components where
  schemas : Option (List (String × Json)) := none
  securitySchemes : Option (List (String × SchemeOrRef)) := none

/-- `oa.OpenAPI`, restricted to the fields the embedded code reads. -/
structure OpenAPI where
  servers : List Server := []
  paths : Option (List (String × PathItem)) := none
  components : Option Components := none

/-! ## The selector (`openapi/selector.py`) -/

/-- The selector's exceptions, plus dataclass `ValueError`s. -/
inductive PyErr where
  | targetNotFound (msg : String)
  | ambiguousContentType (msg : String)
  | valueError (msg : String)
  deriving DecidableEq, Repr

/-- `selector.TargetInfo`: the dataclass declares exactly the fields
`specifier` (the resolved specifier) and `operation` (the live matched
operation). -/
structure TargetInfo where
  specifier : TargetSpecifier
  operation : Operation

/-- Python attribute access `target.<attr>` on a `TargetInfo`, for a
`TargetSpecifier`-valued attribute: only the declared field `specifier`
resolves; any other name — in particular `matched_target`, which the
reducer reads — raises `AttributeError`. -/
def TargetInfo.getattrSpecifier (ti : TargetInfo) (attr : String) :
    Except String TargetSpecifier :=
  if attr = "specifier" then .ok ti.specifier
  else .error ("AttributeError: 'TargetInfo' object has no attribute '" ++
    attr ++ "'")

/-- `selector._find_matching_path`: exact key match first, then the
first declared path (in document order) that the route pattern
glob-matches. -/
def findMatchingPath (spec : OpenAPI) (route : String) : Option String :=
  match spec.paths with
  | none => none
  | some paths =>
      if (lookupS paths route).isSome then some route
      else
        match paths.find? (fun p => fnmatchMatch p.1 route) with
        | some p => some p.1
        | none => none

/-- `selector._get_operation_for_method`: dispatch on the lower-cased
method name. -/
def getOperationForMethod (pathItem : PathItem) (method : String) :
    Option Operation :=
  if method = "get" then pathItem.get
  else if method = "put" then pathItem.put
  else if method = "post" then pathItem.post
  else if method = "delete" then pathItem.delete
  else if method = "options" then pathItem.options
  else if method = "head" then pathItem.head
  else if method = "patch" then pathItem.patch
  else if method = "trace" then pathItem.trace
  else none

/-- The declared request-body content types of an operation, in
declaration order (`[]` when the request body is absent, a `$ref`, or
has no content). -/
def availableTypes (operation : Operation) : List String :=
  match operation.requestBody with
  | none => []
  | some (.reference _) => []
  | some (.body none) => []
  | some (.body (some keys)) => keys

/-- `selector._resolve_content_type`: return the requested type
unchanged when there is nothing to resolve against, prefer an exact
match, then glob-match; zero matches is a not-found error and several
matches an ambiguity error. -/
def resolveContentType (operation : Operation) (contentType : String) :
    Except PyErr String :=
  match operation.requestBody with
  | none => .ok contentType
  | some (.reference _) => .ok contentType
  | some (.body none) => .ok contentType
  | some (.body (some keys)) =>
    match keys with
    | [] => .ok contentType
    | _ :: _ =>
      if contentType ∈ keys then .ok contentType
      else
        match keys.filter (fun ct => fnmatchMatch ct contentType) with
        | [] =>
            .error (.targetNotFound ("Content-type '" ++ contentType ++
              "' not found. Available: " ++ joinComma keys))
        | [m] => .ok m
        | m :: m' :: rest =>
            .error (.ambiguousContentType ("Multiple content-types match '" ++
              contentType ++ "': " ++ joinComma (m :: m' :: rest) ++
              ". Please specify one."))

/-- `selector.find_target`: resolve path, then method, then
content-type, and build the resolved specifier (whose dataclass
validation can itself raise). -/
def findTarget (spec : OpenAPI) (target : TargetSpecifier) :
    Except PyErr TargetInfo :=
  let method := pyLower target.method
  match findMatchingPath spec target.path, spec.paths with
  | none, _ =>
      .error (.targetNotFound ("Route not found: " ++ target.path))
  | some _, none =>
      .error (.targetNotFound ("Route not found: " ++ target.path))
  | some matchedPath, some paths =>
    match lookupS paths matchedPath with
    | none =>
        -- `spec.paths[matched_path]` cannot fail: `_find_matching_path`
        -- only returns keys of `spec.paths`.  Unreachable branch.
        .error (.targetNotFound ("Route not found: " ++ target.path))
    | some pathItem =>
      match getOperationForMethod pathItem method with
      | none =>
          .error (.targetNotFound ("Method '" ++ target.method ++
            "' not found for route '" ++ matchedPath ++ "'"))
      | some operation =>
        match resolveContentType operation target.contentType with
        | .error e => .error e
        | .ok resolvedContentType =>
          match TargetSpecifier.mk? target.method matchedPath resolvedContentType with
          | .error e => .error (.valueError e)
          | .ok resolved => .ok { specifier := resolved, operation := operation }

/-! ## The reducer (`openapi/reducer.py`) -/

/-- The destination built by `reducer._build_destination`. -/
structure Destination where
  method : String
  url : String
  deriving DecidableEq, Repr

/-- The destination `reducer._build_destination` assembles from the
values it reads: first declared server URL with all trailing slashes
stripped, concatenated with the path; method lower-cased. -/
def destinationFrom (spec : OpenAPI) (mt : TargetSpecifier) : Destination :=
  let baseUrl :=
    match spec.servers with
    | [] => ""
    | s :: _ => rstripSlashes s.url
  { method := pyLower mt.method
    url := baseUrl ++ mt.path }

/-- `reducer._build_destination`: computes the base URL, then reads
`target.matched_target.path` and `target.matched_target.method` — an
attribute the `TargetInfo` dataclass does not declare — so the attribute
lookup raises `AttributeError` before any destination is returned. -/
def buildDestination (spec : OpenAPI) (target : TargetInfo) :
    Except String Destination :=
  match TargetInfo.getattrSpecifier target "matched_target" with
  | .error e => .error e
  | .ok mt => .ok (destinationFrom spec mt)

/-- The length of the longest per-schema reference list, used to bound
how much the work list can grow in one step of the collection loop. -/
def maxRefLen (schemas : List (String × Json)) : Nat :=
  (schemas.map (fun p => (findAllRefs p.2).length)).foldr max 0

/-- Every reference string the collection loop can ever see: the seeds
plus every reference occurring in any schema of the table. -/
def allRefsU (schemas : List (String × Json)) (seeds : List String) :
    List String :=
  seeds ++ (schemas.map (fun p => findAllRefs p.2)).flatten

/-- Fuel that provably suffices for the collection loop (see
`collectLoop_sufficient`). -/
def fuelBound (schemas : List (String × Json)) (seeds : List String) : Nat :=
  (maxRefLen schemas + 1) * (allRefsU schemas seeds).length + seeds.length + 1

/-- The work-list loop of `reducer._collect_components`.  The Python
loop runs on a work set with an arbitrary pop order; this embedding pops
from the head of a work list and appends newly discovered references
(the collected key set is order-independent).  `processed` guards both
re-processing and re-enqueueing, exactly as in the source; dangling
names are skipped silently.  The explicit fuel is proved sufficient
(the loop never returns `none` when run with `fuelBound`). -/
def collectLoop (schemas : List (String × Json)) :
    Nat → List String → List String → List (String × Json) →
    Option (List (String × Json))
  | 0, _, _, _ => none
  | _ + 1, [], _, collected => some collected
  | fuel + 1, ref :: rest, processed, collected =>
    if ref ∈ processed then collectLoop schemas fuel rest processed collected
    else
      let processed' := ref :: processed
      match extractSchemaName ref with
      | none => collectLoop schemas fuel rest processed' collected
      | some name =>
        match lookupS schemas name with
        | none => collectLoop schemas fuel rest processed' collected
        | some schemaDump =>
          let collected' := upsertS collected name schemaDump
          let trefs :=
            (findAllRefs schemaDump).filter (fun r => r ∉ processed')
          collectLoop schemas fuel (rest ++ trefs) processed' collected'

/-- `reducer._collect_components`.  The outer `Option` is the fuel
sentinel (proved unreachable); the inner `Option` is the Python
`dict | None` result: `none` when the components table is missing, no
references occur in the operation, or nothing was collected. -/
def collectComponents (spec : OpenAPI) (operation : Operation) :
    Option (Option Json) :=
  match spec.components with
  | none => some none
  | some comps =>
    match comps.schemas with
    | none => some none
    | some schemas =>
      let refs := findAllRefs operation.dump
      match refs with
      | [] => some none
      | _ :: _ =>
        match collectLoop schemas (fuelBound schemas refs) refs [] [] with
        | none => none
        | some [] => some none
        | some (c :: cs) => some (some (.obj [("schemas", .obj (c :: cs))]))

/-- `reducer.OpenAPITarget`. -/
structure OpenAPITarget where
  operation : Operation
  destination : Destination
  components : Option Json := none
  transforms : Option Json := none

/-- `reducer.reduce_to_target`: `_build_destination` is evaluated first,
so its `AttributeError` propagates out of every call.  The outer `none`
is the collection fuel sentinel only (proved unreachable). -/
def reduceToTarget (spec : OpenAPI) (target : TargetInfo) :
    Option (Except String OpenAPITarget) :=
  match buildDestination spec target with
  | .error e => some (.error e)
  | .ok destination =>
    match collectComponents spec target.operation with
    | none => none
    | some comps =>
        some (.ok { operation := target.operation
                    destination := destination
                    components :=
                      match comps with
                      | some j => if pyTruthy j then some j else none
                      | none => none
                    transforms := none })

/-- `OpenAPITarget.to_dict`: the stable wire shape; the `components` key
is added only when the field is truthy (a non-empty mapping). -/
def OpenAPITarget.toDict (t : OpenAPITarget) : Json :=
  let base : List (String × Json) :=
    [("type", .str "openapi"),
     ("openapi_version", .str "3.1"),
     ("destination", .obj [("method", .str t.destination.method),
                           ("url", .str t.destination.url)]),
     ("specification", t.operation.dump),
     ("transforms", match t.transforms with | none => .null | some j => j)]
  match t.components with
  | some c => if pyTruthy c then .obj (base ++ [("components", c)]) else .obj base
  | none => .obj base

/-! ## The loader's content dispatch (`openapi/loader.py`) -/

/-- `loader._load_schema_content`: dispatch on the lower-cased file
suffix.  The JSON and YAML parsers are external collaborators, passed in
as oracles returning either a document or a parser error message. -/
def loadSchemaContent (jsonParse yamlParse : String → Except String Json)
    (content : String) (suffix : String) : Except String Json :=
  if pyLower suffix = ".json" then
    match jsonParse content with
    | .ok d => .ok d
    | .error e => .error ("Failed to parse JSON: " ++ e)
  else if pyLower suffix = ".yaml" ∨ pyLower suffix = ".yml" then
    match yamlParse content with
    | .ok d => .ok d
    | .error e => .error ("Failed to parse YAML: " ++ e)
  else
    .error ("Unsupported file extension: " ++ suffix)

/-! ## The enricher (`openapi/enchricher/`)

`OpenAPIEnricher.enrich` deep-copies the document and applies the
configured mutations; the only mutation is
`InjectDefaultSecuritySchemas`, built from the
`config["globus_auth"]["scopes"]` table and the environment's Globus
Auth service URL. -/

/-- A scope's target rule: the wildcard `"*"` marker or an explicit list
of specifier strings (`scope_config.get("targets", [])`). -/
inductive ScopeTargets where
  | all
  | explicit (targets : List String)

/-- One entry of the configured scope table. -/
structure ScopeConfig where
  description : Option String := none
  targets : ScopeTargets := .explicit []

/-- `_GlobusAuthSecurityScheme.__init__`: an oauth2 scheme with an
authorization-code flow at fixed (environment-derived) endpoints and the
configured scope descriptions (`scope_config.get("description") or ""`). -/
def mkGlobusAuthScheme (authUrl : String)
    (scopes : List (String × ScopeConfig)) : SecurityScheme :=
  { type := "oauth2",
    flows := some {
      authorizationCode := some {
        authorizationUrl := authUrl ++ "v2/oauth2/authorize",
        tokenUrl := authUrl ++ "v2/oauth2/token",
        scopes := scopes.map (fun p => (p.1, p.2.description.getD "")) } } }

/-- `_GlobusAuthSecurityScheme.verify_contained_in`: raise unless
`other` is a security scheme of the same type, with an
authorization-code flow at the same endpoints, whose declared scope keys
include every configured scope key (the scope check is skipped when
either scope table is empty, mirroring `if oscopes and sscopes:`). -/
def verifyContainedIn (self : SecurityScheme) (other : SchemeOrRef) :
    Except String Unit :=
  match other with
  | .reference _ => .error "Unsupported security scheme comparison: Reference."
  | .scheme o =>
    if self.type ≠ o.type then
      .error ("Security scheme mismatch: " ++ self.type ++ " != " ++ o.type ++ ".")
    else
      match o.flows, self.flows with
      | none, _ => .error "'flows' cannot be None."
      | _, none => .error "'flows' cannot be None."
      | some oflows, some sflows =>
        match oflows.authorizationCode, sflows.authorizationCode with
        | none, _ => .error "'authorizationCode' flow cannot be None."
        | _, none => .error "'authorizationCode' flow cannot be None."
        | some ocode, some scode =>
          if ocode.authorizationUrl ≠ scode.authorizationUrl then
            .error ("'authorizationUrl': " ++ ocode.authorizationUrl ++
              " != " ++ scode.authorizationUrl ++ ".")
          else if ocode.tokenUrl ≠ scode.tokenUrl then
            .error ("'tokenUrl': " ++ ocode.tokenUrl ++ " != " ++
              scode.tokenUrl ++ ".")
          else if ocode.scopes ≠ [] ∧ scode.scopes ≠ [] then
            match (scode.scopes.map Prod.fst).filter
                (fun k => k ∉ ocode.scopes.map Prod.fst) with
            | [] => .ok ()
            | m :: ms =>
                .error ("Missing scopes in security scheme: " ++
                  joinComma (m :: ms) ++ ".")
          else .ok ()

/-- The state built by `InjectDefaultSecuritySchemas.__init__`. -/
structure InjectState where
  securityScheme : SecurityScheme
  wildcardScopes : List String
  targetSpecifierScopes : List (TargetSpecifier × List String)

/-- `self._target_specifier_scopes.setdefault(specifier, []).append(scope)`:
append to an existing entry's scope list, else add a new entry at the
end. -/
def upsertSpecScopes :
    List (TargetSpecifier × List String) → TargetSpecifier → String →
    List (TargetSpecifier × List String)
  | [], specifier, scope => [(specifier, [scope])]
  | (k, v) :: t, specifier, scope =>
      if k = specifier then (k, v ++ [scope]) :: t
      else (k, v) :: upsertSpecScopes t specifier scope

/-- Register one scope's explicit target strings (each parsed with
`TargetSpecifier.load`, which can raise). -/
def addTargets (scope : String) :
    List String → List (TargetSpecifier × List String) →
    Except String (List (TargetSpecifier × List String))
  | [], m => .ok m
  | s :: rest, m => do
      let specifier ← TargetSpecifier.load s
      addTargets scope rest (upsertSpecScopes m specifier scope)

/-- The scope-index population loop of
`InjectDefaultSecuritySchemas.__init__`. -/
def initScopeIndices :
    List (String × ScopeConfig) → List String →
    List (TargetSpecifier × List String) →
    Except String (List String × List (TargetSpecifier × List String))
  | [], w, m => .ok (w, m)
  | (scope, cfg) :: t, w, m =>
    match cfg.targets with
    | .all => initScopeIndices t (w ++ [scope]) m
    | .explicit ts => do
        let m' ← addTargets scope ts m
        initScopeIndices t w m'

/-- `InjectDefaultSecuritySchemas.__init__`, with the environment's auth
service URL passed in place of `globus_sdk.config.get_service_url`. -/
def mkInject (scopes : List (String × ScopeConfig)) (authUrl : String) :
    Except String InjectState :=
  match initScopeIndices scopes [] [] with
  | .error e => .error e
  | .ok (w, m) =>
      .ok { securityScheme := mkGlobusAuthScheme authUrl scopes
            wildcardScopes := w
            targetSpecifierScopes := m }

/-- `InjectDefaultSecuritySchemas._validate_and_update_components`: a
scheme already stored under `GlobusAuth` is validated in place; a
missing one is inserted. -/
def updateComponents (st : InjectState) (schema : OpenAPI) :
    Except String OpenAPI :=
  let comps := schema.components.getD {}
  let ss := comps.securitySchemes.getD []
  match lookupS ss "GlobusAuth" with
  | some existing =>
      match verifyContainedIn st.securityScheme existing with
      | .error e => .error e
      | .ok _ =>
          .ok { schema with
                components := some { comps with securitySchemes := some ss } }
  | none =>
      let ss2 := ss ++ [("GlobusAuth", SchemeOrRef.scheme st.securityScheme)]
      .ok { schema with
            components := some { comps with securitySchemes := some ss2 } }

/-- The scopes already present as well-formed single-scope `GlobusAuth`
requirements (`globus_scopes and len(globus_scopes) == 1`). -/
def registeredScopes : List SecurityRequirement → List String
  | [] => []
  | req :: t =>
      (match lookupS req "GlobusAuth" with
       | some [s] => [s]
       | _ => []) ++ registeredScopes t

/-- Insert one scope as a fresh single-scope requirement at the front of
the security list unless it is already registered. -/
def insertScope (acc : List String × List SecurityRequirement)
    (scope : String) : List String × List SecurityRequirement :=
  if scope ∈ acc.1 then acc
  else (scope :: acc.1, ([("GlobusAuth", [scope])] : SecurityRequirement) :: acc.2)

/-- Insert each of a list of scopes in order. -/
def insertScopes (scopes : List String)
    (acc : List String × List SecurityRequirement) :
    List String × List SecurityRequirement :=
  scopes.foldl insertScope acc

/-- The target-specifier pass: scopes of every specifier whose path and
method equal this operation's (content-type ignored). -/
def insertTargetScopes (tss : List (TargetSpecifier × List String))
    (path method : String)
    (acc : List String × List SecurityRequirement) :
    List String × List SecurityRequirement :=
  tss.foldl
    (fun acc p =>
      if p.1.path = path ∧ p.1.method = method then insertScopes p.2 acc
      else acc)
    acc

/-- The registered-scope/security-list pair after both insertion passes
of `_validate_and_update_operation`: targeted scopes first, then
wildcard scopes, starting from the scopes already present. -/
def opAcc (st : InjectState) (path method : String) (op : Operation) :
    List String × List SecurityRequirement :=
  insertScopes st.wildcardScopes
    (insertTargetScopes st.targetSpecifierScopes path method
      (registeredScopes (op.security.getD []), op.security.getD []))

/-- `InjectDefaultSecuritySchemas._validate_and_update_operation`: run
both insertion passes; a non-empty final list is written back
(`if security: operation.security = security`), an empty one leaves the
operation untouched. -/
def updateOperation (st : InjectState) (path method : String)
    (op : Operation) : Operation :=
  match (opAcc st path method op).2 with
  | [] => op
  | s :: rest => { op with security := some (s :: rest) }

/-- Apply `_validate_and_update_operation` to every operation present on
a path item, one canonical method slot at a time (the method is passed
upper-case, as in `mutate`). -/
def updatePathItem (st : InjectState) (path : String) (item : PathItem) :
    PathItem :=
  { get := item.get.map (updateOperation st path "GET")
    put := item.put.map (updateOperation st path "PUT")
    post := item.post.map (updateOperation st path "POST")
    delete := item.delete.map (updateOperation st path "DELETE")
    options := item.options.map (updateOperation st path "OPTIONS")
    head := item.head.map (updateOperation st path "HEAD")
    patch := item.patch.map (updateOperation st path "PATCH")
    trace := item.trace.map (updateOperation st path "TRACE") }

/-- Apply the operation pass to every path of a `paths` table. -/
def mutatePaths (st : InjectState)
    (paths : Option (List (String × PathItem))) :
    Option (List (String × PathItem)) :=
  paths.map (fun ps => ps.map (fun p => (p.1, updatePathItem st p.1 p.2)))

/-- `InjectDefaultSecuritySchemas.mutate`: components first, then every
operation of every path. -/
def mutateSchema (st : InjectState) (schema : OpenAPI) :
    Except String OpenAPI :=
  match updateComponents st schema with
  | .error e => .error e
  | .ok schema1 => .ok { schema1 with paths := mutatePaths st schema1.paths }

/-- `OpenAPIEnricher.enrich`: deep-copy (value semantics here) and apply
the single configured mutation. -/
def enrich (st : InjectState) (schema : OpenAPI) : Except String OpenAPI :=
  mutateSchema st schema

/-! ## Specification-side notions used by the theorems -/

/-- Schema name `n` is reachable from the seed references: some seed (or
some reference inside an already-reachable schema) is a
`#/components/schemas/<n>` pointer and `n` is present in the schema
table.  References whose name is absent from the table justify nothing
(they are silently skipped). -/
inductive ReachableName (schemas : List (String × Json))
    (seeds : List String) : String → Prop
  | seed {r n s} :
      r ∈ seeds → extractSchemaName r = some n → lookupS schemas n = some s →
      ReachableName schemas seeds n
  | step {m sm r n s} :
      ReachableName schemas seeds m → lookupS schemas m = some sm →
      r ∈ findAllRefs sm → extractSchemaName r = some n →
      lookupS schemas n = some s →
      ReachableName schemas seeds n

/-- Schema `m` holds a `#/components/schemas/<n>` reference to schema
`n` (both present in the table). -/
def refersTo (schemas : List (String × Json)) (m n : String) : Prop :=
  ∃ sm r sn, lookupS schemas m = some sm ∧ r ∈ findAllRefs sm ∧
    extractSchemaName r = some n ∧ lookupS schemas n = some sn

/-- The schema table contains a reference cycle: some schema references
itself directly or transitively. -/
def HasRefCycle (schemas : List (String × Json)) : Prop :=
  ∃ n, Relation.TransGen (refersTo schemas) n n

/-- The fields of a JSON object (`[]` for non-objects); used to state
facts about `to_dict` outputs. -/
def objFields : Json → List (String × Json)
  | .obj l => l
  | _ => []

/-- The termination measure of the collection loop: names still to be
discovered (weighted by the largest possible work-list growth per step)
plus the pending work. -/
def loopMeasure (schemas : List (String × Json)) (seeds : List String)
    (work processed : List String) : Nat :=
  (maxRefLen schemas + 1) *
    ((allRefsU schemas seeds).toFinset \ processed.toFinset).card +
    work.length

/-- The loop invariant of `collectLoop`: work items stay inside the
finite reference universe and are justified by reachability; processed
resolvable references have been collected; collected entries are
exactly table entries of reachable names whose own references have been
enqueued or processed; seeds are covered; keys stay duplicate-free. -/
structure LoopInv (schemas : List (String × Json)) (seeds : List String)
    (work processed : List String)
    (collected : List (String × Json)) : Prop where
  workU : ∀ r ∈ work, r ∈ allRefsU schemas seeds
  workJust : ∀ r ∈ work, r ∈ seeds ∨ ∃ m sm,
    ReachableName schemas seeds m ∧ lookupS schemas m = some sm ∧
      r ∈ findAllRefs sm
  procDone : ∀ r ∈ processed, ∀ n s, extractSchemaName r = some n →
    lookupS schemas n = some s → lookupS collected n = some s
  collSound : ∀ n j, lookupS collected n = some j →
    lookupS schemas n = some j ∧ ReachableName schemas seeds n
  seedCover : ∀ r ∈ seeds, r ∈ work ∨ r ∈ processed
  collCover : ∀ n j, lookupS collected n = some j →
    ∀ r ∈ findAllRefs j, r ∈ work ∨ r ∈ processed
  keysNodup : (collected.map Prod.fst).Nodup

/-! ## Concrete documents used as witnesses and counterexamples -/

/-- The `GET /items` operation of the spec's minimal example (no request
body). -/
def exOpC1 : Operation := { dump := .obj [("summary", .str "List items")] }

/-- The spec's minimal example document: one `GET /items` operation and
the single server `https://api.example.com`. -/
def exSpecC1 : OpenAPI :=
  { servers := [{ url := "https://api.example.com" }]
    paths := some [("/items", { get := some exOpC1 })] }

/-- The resolved target `GET /items` in `exSpecC1`. -/
def exTIC1 : TargetInfo :=
  { specifier := { method := "GET", path := "/items", contentType := "*" }
    operation := exOpC1 }

/-- An operation declaring exactly one request-body content type. -/
def opC4 : Operation := { requestBody := some (.body (some ["application/json"])) }

/-- A document whose only operation has no request body. -/
def specC5 : OpenAPI := { paths := some [("/items", { get := some exOpC1 })] }

/-- The default-content-type specifier `GET /items`. -/
def tspecC5 : TargetSpecifier := { method := "GET", path := "/items", contentType := "*" }

/-- A document whose only operation declares one request-body content
type (for the amended resolved-target theorem's witness). -/
def specC5w : OpenAPI := { paths := some [("/items", { post := some opC4 })] }

/-- A document declaring only `GET /items` (the claim's not-found
scenario). -/
def specC7 : OpenAPI := { paths := some [("/items", { get := some exOpC1 })] }

/-- A JSON parser oracle that always fails (invalid content). -/
def jsonParseF : String → Except String Json :=
  fun _ => .error "Expecting value: line 1 column 1 (char 0)"

/-- A YAML parser oracle that always fails (invalid content). -/
def yamlParseF : String → Except String Json :=
  fun _ => .error "mapping values are not allowed here"

/-- An operation whose serialization references the `Item` schema. -/
def opC2 : Operation :=
  { dump := .obj [("responses", .obj [("200", .obj
      [("content", .obj [("application/json", .obj
        [("schema", .obj [("$ref", .str "#/components/schemas/Item")])])])])])] }

/-- A schema table where `Item` references `Error` and `Error` is a
leaf; `Unused` is declared but unreachable. -/
def schemasC2 : List (String × Json) :=
  [("Item", .obj [("type", .str "object"),
     ("properties", .obj [("error", .obj
       [("$ref", .str "#/components/schemas/Error")])])]),
   ("Error", .obj [("type", .str "string")]),
   ("Unused", .obj [("type", .str "integer")])]

/-- A document carrying `schemasC2`. -/
def specC2 : OpenAPI := { components := some { schemas := some schemasC2 } }

/-- A self-referential schema table: `A` references itself. -/
def schemasC3 : List (String × Json) :=
  [("A", .obj [("items", .obj [("$ref", .str "#/components/schemas/A")])])]

/-- An operation referencing the self-referential schema `A`. -/
def opC3 : Operation :=
  { dump := .obj [("requestBody", .obj [("content", .obj
      [("application/json", .obj [("schema", .obj
        [("$ref", .str "#/components/schemas/A")])])])])] }

/-- A document carrying the cyclic table `schemasC3`. -/
def specC3 : OpenAPI := { components := some { schemas := some schemasC3 } }

/-- A one-scope enricher configuration (wildcard target). -/
def cfgC6 : List (String × ScopeConfig) :=
  [("s:all", { description := some "All operations", targets := .all })]

/-- The Globus Auth base URL of the production environment. -/
def authUrlC6 : String := "https://auth.globus.org/"

/-- The `InjectDefaultSecuritySchemas` state built from `cfgC6`. -/
def stC6 : InjectState :=
  { securityScheme := mkGlobusAuthScheme authUrlC6 cfgC6
    wildcardScopes := ["s:all"]
    targetSpecifierScopes := [] }

/-- A document with one unsecured operation, to be enriched. -/
def docC6 : OpenAPI := { paths := some [("/items", { get := some exOpC1 })] }

/-- A configuration declaring one scope (used for the security-scheme
compatibility counterexample). -/
def cfgScopesX : List (String × ScopeConfig) :=
  [("resource:all", { description := some "Full access", targets := .all })]

/-- The enricher state built from `cfgScopesX`. -/
def stX : InjectState :=
  { securityScheme := mkGlobusAuthScheme authUrlC6 cfgScopesX
    wildcardScopes := ["resource:all"]
    targetSpecifierScopes := [] }

/-- An existing `GlobusAuth` scheme with matching endpoints but an EMPTY
scope table — its scopes are not a superset of the configured ones. -/
def existingX : SecurityScheme :=
  { type := "oauth2",
    flows := some {
      authorizationCode := some {
        authorizationUrl := "https://auth.globus.org/v2/oauth2/authorize",
        tokenUrl := "https://auth.globus.org/v2/oauth2/token",
        scopes := [] } } }

/-- A pathless document already carrying `existingX` under `GlobusAuth`. -/
def docX : OpenAPI :=
  { components := some { securitySchemes := some [("GlobusAuth", .scheme existingX)] } }

/-- A pathless document already carrying the exact configured scheme. -/
def docXok : OpenAPI :=
  let ss : List (String × SchemeOrRef) :=
    [("GlobusAuth", .scheme (mkGlobusAuthScheme authUrlC6 cfgScopesX))]
  { components := some { securitySchemes := some ss } }

/-- The scope keys declared by a scheme's authorization-code flow. -/
def schemeScopeKeys (s : SecurityScheme) : List String :=
  match s.flows with
  | some f =>
      match f.authorizationCode with
      | some c => c.scopes.map Prod.fst
      | none => []
  | none => []

/-- Structural compatibility of an existing security scheme with the
configured one, as the code actually checks it: same type, both carry
an authorization-code flow with equal endpoint URLs, and — only when
both scope tables are non-empty — the existing scheme's scope keys
include every configured scope key. -/
def SchemeCompatible (self : SecurityScheme) (other : SchemeOrRef) : Prop :=
  ∃ o oflows sflows ocode scode,
    other = .scheme o ∧
    self.type = o.type ∧
    o.flows = some oflows ∧
    self.flows = some sflows ∧
    oflows.authorizationCode = some ocode ∧
    sflows.authorizationCode = some scode ∧
    ocode.authorizationUrl = scode.authorizationUrl ∧
    ocode.tokenUrl = scode.tokenUrl ∧
    (ocode.scopes ≠ [] → scode.scopes ≠ [] →
      ∀ k ∈ scode.scopes.map Prod.fst, k ∈ ocode.scopes.map Prod.fst)

/-! ## Helper lemmas -/

/-- The remainder after a closed character class is strictly shorter
than the input. -/
theorem scanToClose_rest_lt (l : List Char) :
    ∀ stuff rest, scanToClose l = some (stuff, rest) →
      rest.length < l.length := by
  induction l with
  | nil => intro s r h; simp [scanToClose] at h
  | cons c t ih =>
    intro s r h
    unfold scanToClose at h
    by_cases hc : c = ']'
    · rw [if_pos hc] at h
      cases h
      simp
    · rw [if_neg hc] at h
      cases hsc : scanToClose t with
      | none => rw [hsc] at h; cases h
      | some pr =>
        obtain ⟨s', r'⟩ := pr
        rw [hsc] at h
        cases h
        have := ih s' r hsc
        simp
        omega

/-- The pattern remainder returned by `parseClassBody` is no longer
than its input. -/
theorem parseClassBody_rest_le (neg : Bool) (l1 : List Char) :
    ∀ neg2 stuff rest, parseClassBody neg l1 = some (neg2, stuff, rest) →
      rest.length ≤ l1.length := by
  intro neg2 stuff rest h
  unfold parseClassBody at h
  split at h
  · rename_i t
    cases hsc : scanToClose t with
    | none => rw [hsc] at h; cases h
    | some pr =>
      obtain ⟨s', r'⟩ := pr
      rw [hsc] at h
      simp only [Option.some.injEq, Prod.mk.injEq] at h
      obtain ⟨h1, h2, h3⟩ := h
      subst h3
      have := scanToClose_rest_lt t s' r' hsc
      simp only [List.length_cons]
      omega
  · cases hsc : scanToClose l1 with
    | none => rw [hsc] at h; cases h
    | some pr =>
      obtain ⟨s', r'⟩ := pr
      rw [hsc] at h
      simp only [Option.some.injEq, Prod.mk.injEq] at h
      obtain ⟨h1, h2, h3⟩ := h
      subst h3
      have := scanToClose_rest_lt l1 s' r' hsc
      omega

/-- The pattern remainder returned by `parseClass` is no longer than its
input. -/
theorem parseClass_rest_le (l : List Char) :
    ∀ neg stuff rest, parseClass l = some (neg, stuff, rest) →
      rest.length ≤ l.length := by
  intro neg stuff rest h
  unfold parseClass at h
  split at h
  · rename_i t
    have := parseClassBody_rest_le true t neg stuff rest h
    simp only [List.length_cons]
    omega
  · exact parseClassBody_rest_le false l neg stuff rest h

/-- Any two sufficient fuels give the glob matcher the same answer, so
`globMatch`'s fixed fuel `p.length + s.length + 1` is canonical. -/
theorem globMatchF_irrel (f1 : Nat) : ∀ (f2 : Nat) (p s : List Char),
    p.length + s.length < f1 → p.length + s.length < f2 →
    globMatchF f1 p s = globMatchF f2 p s := by
  induction f1 with
  | zero => intro f2 p s h1 _; exact absurd h1 (Nat.not_lt_zero _)
  | succ n ih =>
    intro f2 p s h1 h2
    cases f2 with
    | zero => exact absurd h2 (Nat.not_lt_zero _)
    | succ m =>
      cases p with
      | nil =>
        cases s with
        | nil => rfl
        | cons a s' => rfl
      | cons c ps =>
        simp only [globMatchF]
        by_cases hstar : c = '*'
        · rw [if_pos hstar, if_pos hstar]
          have e1 : globMatchF n ps s = globMatchF m ps s :=
            ih m ps s (by simp at h1; omega) (by simp at h2; omega)
          rw [e1]
          congr 1
          cases s with
          | nil => rfl
          | cons a s' =>
            exact ih m (c :: ps) s' (by simp at h1 ⊢; omega)
              (by simp at h2 ⊢; omega)
        · rw [if_neg hstar, if_neg hstar]
          by_cases hq : c = '?'
          · rw [if_pos hq, if_pos hq]
            cases s with
            | nil => rfl
            | cons a s' =>
              exact ih m ps s' (by simp at h1 ⊢; omega) (by simp at h2 ⊢; omega)
          · rw [if_neg hq, if_neg hq]
            by_cases hb : c = '['
            · rw [if_pos hb, if_pos hb]
              cases hpc : parseClass ps with
              | none =>
                cases s with
                | nil => rfl
                | cons d s' =>
                  simp only
                  congr 1
                  exact ih m ps s' (by simp at h1 ⊢; omega)
                    (by simp at h2 ⊢; omega)
              | some trip =>
                obtain ⟨neg, stuff, rest⟩ := trip
                cases s with
                | nil => rfl
                | cons d s' =>
                  simp only
                  congr 1
                  have hr := parseClass_rest_le ps neg stuff rest hpc
                  exact ih m rest s' (by simp at h1 ⊢; omega)
                    (by simp at h2 ⊢; omega)
            · rw [if_neg hb, if_neg hb]
              cases s with
              | nil => rfl
              | cons d s' =>
                simp only
                congr 1
                exact ih m ps s' (by simp at h1 ⊢; omega)
                  (by simp at h2 ⊢; omega)

/-- A successful `TargetSpecifier.mk?` returns exactly the given
fields. -/
theorem mk?_ok (m p c : String) (t : TargetSpecifier)
    (h : TargetSpecifier.mk? m p c = .ok t) :
    t = { method := m, path := p, contentType := c } := by
  unfold TargetSpecifier.mk? at h
  split at h
  · exact absurd h (by simp)
  · split at h
    · exact absurd h (by simp)
    · cases h; rfl

/-- A successfully resolved content type is the requested one when the
operation declares no content, and a declared one otherwise. -/
theorem resolveContentType_ok (op : Operation) (ct r : String)
    (h : resolveContentType op ct = .ok r) :
    (availableTypes op = [] → r = ct) ∧
    (availableTypes op ≠ [] → r ∈ availableTypes op) := by
  cases hrb : op.requestBody with
  | none =>
      simp only [resolveContentType, hrb] at h
      cases h
      exact ⟨fun _ => rfl, fun hne => absurd (by simp [availableTypes, hrb]) hne⟩
  | some rb =>
    cases rb with
    | reference ref =>
        simp only [resolveContentType, hrb] at h
        cases h
        exact ⟨fun _ => rfl, fun hne => absurd (by simp [availableTypes, hrb]) hne⟩
    | body c =>
      cases c with
      | none =>
          simp only [resolveContentType, hrb] at h
          cases h
          exact ⟨fun _ => rfl,
            fun hne => absurd (by simp [availableTypes, hrb]) hne⟩
      | some keys =>
        cases keys with
        | nil =>
            simp only [resolveContentType, hrb] at h
            cases h
            exact ⟨fun _ => rfl,
              fun hne => absurd (by simp [availableTypes, hrb]) hne⟩
        | cons k ks =>
          simp only [resolveContentType, hrb] at h
          have havail : availableTypes op = k :: ks := by
            simp [availableTypes, hrb]
          by_cases hex : ct ∈ k :: ks
          · rw [if_pos hex] at h
            cases h
            exact ⟨fun he => absurd he (by rw [havail]; exact List.cons_ne_nil k ks),
              fun _ => by rw [havail]; exact hex⟩
          · rw [if_neg hex] at h
            cases hf : (k :: ks).filter (fun x => fnmatchMatch x ct) with
            | nil => rw [hf] at h; exact absurd h (by simp)
            | cons m ms =>
              cases ms with
              | nil =>
                  rw [hf] at h
                  cases h
                  refine ⟨fun he => absurd he (by rw [havail]; exact List.cons_ne_nil k ks), fun _ => ?_⟩
                  rw [havail]
                  have : r ∈ (k :: ks).filter (fun x => fnmatchMatch x ct) := by
                    rw [hf]; exact List.mem_singleton.mpr rfl
                  exact List.mem_of_mem_filter this
              | cons m2 ms2 =>
                  rw [hf] at h
                  exact absurd h (by simp)

/-! ## C1: destination building (code bug) -/

/-- C1, evaluated against the code: `_build_destination` reads
`target.matched_target`, an attribute the `TargetInfo` dataclass does
not declare (its field is `specifier`), so `reduce_to_target` raises
`AttributeError` for every document and every resolved target and never
builds the claimed destination.  The destination the remaining code
would assemble from the resolved specifier of the spec's own
`GET /items` example is exactly the claimed one, so the failure is the
attribute read alone. -/
theorem c1_build_destination (spec : OpenAPI) (ti : TargetInfo) :
    reduceToTarget spec ti = some (.error
      "AttributeError: 'TargetInfo' object has no attribute 'matched_target'")
    ∧ destinationFrom exSpecC1 exTIC1.specifier =
      { method := "get", url := "https://api.example.com/items" } := by
  refine ⟨?_, by decide⟩
  simp only [reduceToTarget, buildDestination, TargetInfo.getattrSpecifier]
  rw [if_neg (by decide)]
  rfl

/-- Witness for C1 at the spec's own scenario: even reducing the
resolved target `GET /items` of the example document raises
`AttributeError`, via `c1_build_destination`. -/
theorem c1_build_destination_witness :
    reduceToTarget exSpecC1 exTIC1 = some (.error
      "AttributeError: 'TargetInfo' object has no attribute 'matched_target'") :=
  (c1_build_destination exSpecC1 exTIC1).1

/-! ## C4: content-type resolution -/

/-- C4: content-type resolution returns the requested type unchanged
when the operation declares no request-body content; otherwise an exact
match is returned as-is, a unique glob match is returned, zero glob
matches raise a not-found error listing the available types, and two or
more glob matches raise an ambiguous-content-type error listing all
matches. -/
theorem c4_resolve_content_type (op : Operation) (ct : String) :
    (availableTypes op = [] → resolveContentType op ct = .ok ct) ∧
    (ct ∈ availableTypes op → resolveContentType op ct = .ok ct) ∧
    (ct ∉ availableTypes op →
      (∀ m, (availableTypes op).filter (fun k => fnmatchMatch k ct) = [m] →
        resolveContentType op ct = .ok m) ∧
      ((availableTypes op).filter (fun k => fnmatchMatch k ct) = [] →
        availableTypes op ≠ [] →
        resolveContentType op ct = .error (.targetNotFound
          ("Content-type '" ++ ct ++ "' not found. Available: " ++
            joinComma (availableTypes op)))) ∧
      (∀ m1 m2 ms,
        (availableTypes op).filter (fun k => fnmatchMatch k ct) = m1 :: m2 :: ms →
        resolveContentType op ct = .error (.ambiguousContentType
          ("Multiple content-types match '" ++ ct ++ "': " ++
            joinComma (m1 :: m2 :: ms) ++ ". Please specify one.")))) := by
  cases hrb : op.requestBody with
  | none =>
      simp [availableTypes, resolveContentType, hrb]
  | some rb =>
    cases rb with
    | reference r =>
        simp [availableTypes, resolveContentType, hrb]
    | body c =>
      cases c with
      | none =>
          simp [availableTypes, resolveContentType, hrb]
      | some keys =>
        cases keys with
        | nil =>
            simp [availableTypes, resolveContentType, hrb]
        | cons k ks =>
          simp only [availableTypes, resolveContentType, hrb]
          by_cases hex : ct ∈ k :: ks
          · refine ⟨fun hne => absurd hne (List.cons_ne_nil k ks), fun _ => by rw [if_pos hex], ?_⟩
            intro hnot
            exact absurd hex hnot
          · rw [if_neg hex]
            refine ⟨fun hne => absurd hne (List.cons_ne_nil k ks), fun hmem => absurd hmem hex, ?_⟩
            intro _
            refine ⟨?_, ?_, ?_⟩
            · intro m hf; rw [hf]
            · intro hf _; rw [hf]
            · intro m1 m2 ms hf; rw [hf]

/-- Witness for C4: an operation declaring exactly
`application/json` is auto-resolved by the default `*` wildcard, via
`c4_resolve_content_type`. -/
theorem c4_resolve_content_type_witness :
    ("*" ∉ availableTypes opC4) ∧
    (availableTypes opC4).filter (fun k => fnmatchMatch k "*") =
      ["application/json"] ∧
    resolveContentType opC4 "*" = .ok "application/json" :=
  ⟨by decide, by decide,
    ((c4_resolve_content_type opC4 "*").2.2 (by decide)).1
      "application/json" (by decide)⟩

/-! ## C5: concreteness of resolved targets (corrected) -/

/-- Counterexample to C5 as stated: the lookup of `GET /items` with the
default `*` content-type against a document whose operation has no
request body succeeds, and the returned "resolved" content-type is the
unresolved wildcard `*` itself — not a concrete value. -/
theorem c5_counterexample :
    (findTarget specC5 tspecC5).toOption.map
      (fun ti => ti.specifier.contentType) = some "*" ∧
    hasGlobMeta "*" = true := by
  exact ⟨rfl, by decide⟩

/-- C5 (amended): every successful `find_target` lookup returns an
actual declared path and the requested method; the content-type is one
of the operation's declared request-body content types whenever the
operation declares any, and otherwise is the caller's requested
content-type returned unchanged (possibly still a wildcard). -/
theorem c5_amended_resolved_target (spec : OpenAPI)
    (target : TargetSpecifier) (ti : TargetInfo)
    (h : findTarget spec target = .ok ti) :
    (∃ paths pathItem, spec.paths = some paths ∧
      lookupS paths ti.specifier.path = some pathItem) ∧
    ti.specifier.method = target.method ∧
    (availableTypes ti.operation ≠ [] →
      ti.specifier.contentType ∈ availableTypes ti.operation) ∧
    (availableTypes ti.operation = [] →
      ti.specifier.contentType = target.contentType) := by
  unfold findTarget at h
  simp only at h
  split at h
  · exact absurd h (by simp)
  · exact absurd h (by simp)
  · rename_i matchedPath paths hfm hps
    split at h
    · exact absurd h (by simp)
    · rename_i pathItem hlk
      split at h
      · exact absurd h (by simp)
      · rename_i operation hop
        split at h
        · exact absurd h (by simp)
        · rename_i rct hr
          split at h
          · exact absurd h (by simp)
          · rename_i resolved hmk
            simp only [Except.ok.injEq] at h
            have hres := mk?_ok _ _ _ _ hmk
            subst hres
            cases h
            have hct := resolveContentType_ok _ _ _ hr
            exact ⟨⟨paths, pathItem, hps, hlk⟩, rfl,
              fun hne => hct.2 hne, fun he => hct.1 he⟩

/-- Witness for C5 (amended): resolving `GET /items` with content-type
`*` against a document whose operation declares `application/json`
returns the declared path, the requested method, and the declared
content type, via `c5_amended_resolved_target`. -/
theorem c5_amended_resolved_target_witness :
    findTarget specC5w { method := "POST", path := "/item?", contentType := "*" } =
      .ok { specifier :=
              { method := "POST", path := "/items",
                contentType := "application/json" },
            operation := opC4 } ∧
    (∃ paths pathItem, specC5w.paths = some paths ∧
      lookupS paths "/items" = some pathItem) := by
  have hok : findTarget specC5w
      { method := "POST", path := "/item?", contentType := "*" } =
      .ok { specifier :=
              { method := "POST", path := "/items",
                contentType := "application/json" },
            operation := opC4 } := rfl
  have h := c5_amended_resolved_target specC5w
    { method := "POST", path := "/item?", contentType := "*" } _ hok
  exact ⟨hok, h.1⟩

/-! ## C7: not-found error messages (code bug) -/

/-- C7, evaluated at the failing inputs: selecting `DELETE /items`
against a document declaring only `GET /items` raises a not-found error
whose message does NOT mention `GET` (no list of available methods), and
selecting an unknown route raises a not-found error that does NOT list
the declared paths — both contradicting the claimed
"lists the valid alternatives" behavior (only the content-type error
lists alternatives). -/
theorem c7_not_found_messages :
    findTarget specC7 { method := "DELETE", path := "/items", contentType := "*" } =
      .error (.targetNotFound "Method 'DELETE' not found for route '/items'") ∧
    containsSub "Method 'DELETE' not found for route '/items'" "GET" = false ∧
    findTarget specC7 { method := "GET", path := "/nonexistent", contentType := "*" } =
      .error (.targetNotFound "Route not found: /nonexistent") ∧
    containsSub "Route not found: /nonexistent" "/items" = false := by
  exact ⟨rfl, by decide, rfl, by decide⟩

/-! ## C8: loader format dispatch (code bug) -/

/-- C8, evaluated against the code: `_load_schema_content` dispatches on
the file extension instead of attempting JSON then YAML.  A suffix
other than `.json`/`.yaml`/`.yml` is rejected outright without any parse
attempt, and invalid JSON under a `.json` suffix produces a
JSON-specific error (no YAML fallback, no combined
"neither format matched" error). -/
theorem c8_extension_dispatch (jsonParse yamlParse : String → Except String Json)
    (content e : String) (hj : jsonParse content = .error e) :
    loadSchemaContent jsonParse yamlParse content ".txt" =
      .error ("Unsupported file extension: " ++ ".txt") ∧
    loadSchemaContent jsonParse yamlParse content ".json" =
      .error ("Failed to parse JSON: " ++ e) := by
  constructor
  · unfold loadSchemaContent
    rw [if_neg (by decide), if_neg (by decide)]
  · unfold loadSchemaContent
    rw [if_pos (by decide), hj]

/-- Witness for C8: a failing JSON parser on non-JSON content, showing
the extension-based rejection and the JSON-specific error, via
`c8_extension_dispatch`. -/
theorem c8_extension_dispatch_witness :
    jsonParseF "not json" = .error "Expecting value: line 1 column 1 (char 0)" ∧
    (loadSchemaContent jsonParseF yamlParseF "not json" ".txt" =
      .error ("Unsupported file extension: " ++ ".txt") ∧
     loadSchemaContent jsonParseF yamlParseF "not json" ".json" =
      .error ("Failed to parse JSON: " ++
        "Expecting value: line 1 column 1 (char 0)")) :=
  ⟨rfl, c8_extension_dispatch jsonParseF yamlParseF "not json" _ rfl⟩

/-! ## C9: specifier round-trip -/

/-- `toList` distributes over string append. -/
theorem str_toList_append (a b : String) :
    (a ++ b).toList = a.toList ++ b.toList := by
  cases a; cases b; rfl

/-- `String.mk` inverts `toList`. -/
theorem str_mk_toList (s : String) : String.mk s.toList = s := by
  cases s; rfl

/-- `takeWhile` of an all-satisfying prefix followed by a
non-satisfying head. -/
theorem takeWhile_append_run (pred : Char → Bool) (l1 l2 : List Char)
    (h1 : ∀ c ∈ l1, pred c = true)
    (h2 : ∀ c t, l2 = c :: t → pred c = false) :
    (l1 ++ l2).takeWhile pred = l1 := by
  induction l1 with
  | nil =>
    cases l2 with
    | nil => rfl
    | cons c t => simp [List.takeWhile_cons, h2 c t rfl]
  | cons a l1' ih =>
    have ha := h1 a (List.mem_cons_self a l1')
    simp only [List.cons_append, List.takeWhile_cons, ha, ite_true]
    rw [ih (fun c hc => h1 c (List.mem_cons_of_mem a hc))]

/-- `dropWhile` of an all-satisfying prefix followed by a
non-satisfying head. -/
theorem dropWhile_append_run (pred : Char → Bool) (l1 l2 : List Char)
    (h1 : ∀ c ∈ l1, pred c = true)
    (h2 : ∀ c t, l2 = c :: t → pred c = false) :
    (l1 ++ l2).dropWhile pred = l2 := by
  induction l1 with
  | nil =>
    cases l2 with
    | nil => rfl
    | cons c t => simp [List.dropWhile_cons, h2 c t rfl]
  | cons a l1' ih =>
    have ha := h1 a (List.mem_cons_self a l1')
    simp only [List.cons_append, List.dropWhile_cons, ha, ite_true]
    exact ih (fun c hc => h1 c (List.mem_cons_of_mem a hc))

/-- The eight canonical verbs are nonempty, purely alphabetic and fixed
by upper-casing. -/
theorem method_props (m : String) (hm : m ∈ HTTP_METHODS) :
    pyUpper m = m ∧ m.toList ≠ [] ∧ ∀ c ∈ m.toList, c.isAlpha = true := by
  simp only [HTTP_METHODS, List.mem_cons, List.not_mem_nil, or_false] at hm
  rcases hm with rfl | rfl | rfl | rfl | rfl | rfl | rfl | rfl <;>
    exact ⟨by decide, by decide, by decide⟩

/-- C9: parsing the rendered string form of a specifier returns the
specifier itself, whenever the fields can appear in the string form at
all (canonical upper-case method, path `/…` with no whitespace,
content-type either the default `*` — omitted from the rendering — or
nonempty without whitespace). -/
theorem c9_specifier_roundtrip (t : TargetSpecifier) (pathRest : List Char)
    (hm : t.method ∈ HTTP_METHODS)
    (hp : t.path.toList = '/' :: pathRest)
    (hpr : pathRest ≠ [])
    (hpw : ∀ c ∈ pathRest, isPyWhitespace c = false)
    (hct : t.contentType = "*" ∨
      (t.contentType.toList ≠ [] ∧
        ∀ c ∈ t.contentType.toList, isPyWhitespace c = false)) :
    TargetSpecifier.load t.toStringForm = .ok t := by
  obtain ⟨m, p, ct⟩ := t
  simp only at hm hp hct ⊢
  obtain ⟨hupper, hmne, halpha⟩ := method_props m hm
  have hp' : p.data = '/' :: pathRest := hp
  have hmk? : TargetSpecifier.mk? m p ct =
      .ok { method := m, path := p, contentType := ct } := by
    unfold TargetSpecifier.mk?
    rw [if_neg (by simp [hm]), if_neg (by simp [startsWithSlash, hp'])]
  have hcreate : ∀ c, TargetSpecifier.create m p c =
      TargetSpecifier.mk? m p c := by
    intro c
    unfold TargetSpecifier.create
    rw [hupper]
  have hpmk : String.mk ('/' :: pathRest) = p := by
    rw [← hp]; exact str_mk_toList p
  have hmne' : (m.toList = []) = False := eq_false hmne
  have hpr' : (pathRest = []) = False := eq_false hpr
  have hnotalpha : ∀ (c : Char) (u : List Char),
      (' ' :: u) = c :: u → c.isAlpha = false := by
    intro c u h; cases h; decide
  by_cases hstar : ct = "*"
  · -- content-type "*": rendered without the content-type token
    subst hstar
    have hform : TargetSpecifier.toStringForm
        { method := m, path := p, contentType := "*" } = m ++ " " ++ p := by
      unfold TargetSpecifier.toStringForm
      rw [if_pos rfl]
    have hlist : (m ++ " " ++ p).toList =
        m.toList ++ (' ' :: '/' :: pathRest) := by
      rw [str_toList_append, str_toList_append, hp]
      simp
    have h1 : (m.toList ++ (' ' :: '/' :: pathRest)).takeWhile
        (fun c => c.isAlpha) = m.toList :=
      takeWhile_append_run _ _ _ halpha (by intro c u h; cases h; decide)
    have h2 : (m.toList ++ (' ' :: '/' :: pathRest)).dropWhile
        (fun c => c.isAlpha) = ' ' :: '/' :: pathRest :=
      dropWhile_append_run _ _ _ halpha (by intro c u h; cases h; decide)
    have h3 : (' ' :: '/' :: pathRest).takeWhile isPyWhitespace = [' '] := by
      have := takeWhile_append_run isPyWhitespace [' '] ('/' :: pathRest)
        (by intro c hc; simp at hc; subst hc; decide)
        (by intro c u h; cases h; decide)
      simpa using this
    have h4 : (' ' :: '/' :: pathRest).dropWhile isPyWhitespace =
        '/' :: pathRest := by
      have := dropWhile_append_run isPyWhitespace [' '] ('/' :: pathRest)
        (by intro c hc; simp at hc; subst hc; decide)
        (by intro c u h; cases h; decide)
      simpa using this
    have h5 : pathRest.takeWhile nonWs = pathRest := by
      have := takeWhile_append_run nonWs pathRest []
        (by intro c hc; simp [nonWs, hpw c hc]) (by intro c u h; cases h)
      simpa using this
    have h6 : pathRest.dropWhile nonWs = [] := by
      have := dropWhile_append_run nonWs pathRest []
        (by intro c hc; simp [nonWs, hpw c hc]) (by intro c u h; cases h)
      simpa using this
    have hend0 : atPyEnd ([] : List Char) = true := rfl
    rw [hform]
    simp only [TargetSpecifier.load, specifierRegexMatch, hlist, h1, h2, h3,
      h4, h5, h6, hmne', hpr', hend0, if_false, ite_true, ite_false,
      reduceCtorEq, str_mk_toList, hpmk, hcreate, Option.getD]
    rw [hmk?]
  · -- explicit content-type: rendered with a trailing token
    have hct2 : ct.toList ≠ [] ∧
        ∀ c ∈ ct.toList, isPyWhitespace c = false := by
      rcases hct with h | h
      · exact absurd h hstar
      · exact h
    obtain ⟨hcne, hcw⟩ := hct2
    have hform : TargetSpecifier.toStringForm
        { method := m, path := p, contentType := ct } =
        m ++ " " ++ p ++ " " ++ ct := by
      unfold TargetSpecifier.toStringForm
      rw [if_neg hstar]
    have hlist : (m ++ " " ++ p ++ " " ++ ct).toList =
        m.toList ++ (' ' :: '/' :: (pathRest ++ ' ' :: ct.toList)) := by
      rw [str_toList_append, str_toList_append, str_toList_append,
        str_toList_append, hp]
      simp
    have h1 : (m.toList ++ (' ' :: '/' :: (pathRest ++ ' ' :: ct.toList))).takeWhile
        (fun c => c.isAlpha) = m.toList :=
      takeWhile_append_run _ _ _ halpha (by intro c u h; cases h; decide)
    have h2 : (m.toList ++ (' ' :: '/' :: (pathRest ++ ' ' :: ct.toList))).dropWhile
        (fun c => c.isAlpha) = ' ' :: '/' :: (pathRest ++ ' ' :: ct.toList) :=
      dropWhile_append_run _ _ _ halpha (by intro c u h; cases h; decide)
    have h3 : (' ' :: '/' :: (pathRest ++ ' ' :: ct.toList)).takeWhile
        isPyWhitespace = [' '] := by
      have := takeWhile_append_run isPyWhitespace [' ']
        ('/' :: (pathRest ++ ' ' :: ct.toList))
        (by intro c hc; simp at hc; subst hc; decide)
        (by intro c u h; cases h; decide)
      simpa using this
    have h4 : (' ' :: '/' :: (pathRest ++ ' ' :: ct.toList)).dropWhile
        isPyWhitespace = '/' :: (pathRest ++ ' ' :: ct.toList) := by
      have := dropWhile_append_run isPyWhitespace [' ']
        ('/' :: (pathRest ++ ' ' :: ct.toList))
        (by intro c hc; simp at hc; subst hc; decide)
        (by intro c u h; cases h; decide)
      simpa using this
    have h5 : (pathRest ++ ' ' :: ct.toList).takeWhile nonWs = pathRest :=
      takeWhile_append_run nonWs pathRest (' ' :: ct.toList)
        (by intro c hc; simp [nonWs, hpw c hc])
        (by intro c u h; cases h; decide)
    have h6 : (pathRest ++ ' ' :: ct.toList).dropWhile nonWs =
        ' ' :: ct.toList :=
      dropWhile_append_run nonWs pathRest (' ' :: ct.toList)
        (by intro c hc; simp [nonWs, hpw c hc])
        (by intro c u h; cases h; decide)
    have hend : atPyEnd (' ' :: ct.toList) = false := by
      cases hc : ct.toList with
      | nil => exact absurd hc hcne
      | cons c u => rfl
    have h7 : (' ' :: ct.toList).takeWhile isPyWhitespace = [' '] := by
      have := takeWhile_append_run isPyWhitespace [' '] ct.toList
        (by intro c hc; simp at hc; subst hc; decide)
        (by intro c u h; exact hcw c (by rw [h]; exact List.mem_cons_self c u))
      simpa using this
    have h8 : (' ' :: ct.toList).dropWhile isPyWhitespace = ct.toList := by
      have := dropWhile_append_run isPyWhitespace [' '] ct.toList
        (by intro c hc; simp at hc; subst hc; decide)
        (by intro c u h; exact hcw c (by rw [h]; exact List.mem_cons_self c u))
      simpa using this
    have h9 : ct.toList.takeWhile nonWs = ct.toList := by
      have := takeWhile_append_run nonWs ct.toList []
        (by intro c hc; simp [nonWs, hcw c hc]) (by intro c u h; cases h)
      simpa using this
    have h10 : ct.toList.dropWhile nonWs = [] := by
      have := dropWhile_append_run nonWs ct.toList []
        (by intro c hc; simp [nonWs, hcw c hc]) (by intro c u h; cases h)
      simpa using this
    have hcne' : (ct.toList = []) = False := eq_false hcne
    have hend0 : atPyEnd ([] : List Char) = true := rfl
    rw [hform]
    simp only [TargetSpecifier.load, specifierRegexMatch, hlist, h1, h2, h3,
      h4, h5, h6, h7, h8, h9, h10, hend, hend0, hmne', hpr', hcne',
      if_false, ite_true, ite_false, reduceCtorEq, Bool.false_eq_true,
      str_mk_toList, hpmk, hcreate, Option.getD]
    rw [hmk?]

/-- Witness for C9: the specifier `POST /items application/json`
round-trips through its rendered string form, via
`c9_specifier_roundtrip`. -/
theorem c9_specifier_roundtrip_witness :
    TargetSpecifier.toStringForm
        { method := "POST", path := "/items",
          contentType := "application/json" } =
      "POST /items application/json" ∧
    TargetSpecifier.load "POST /items application/json" =
      .ok { method := "POST", path := "/items",
            contentType := "application/json" } := by
  constructor
  · rfl
  · have h := c9_specifier_roundtrip
      { method := "POST", path := "/items", contentType := "application/json" }
      "items".toList (by decide) (by decide) (by decide) (by decide)
      (Or.inr ⟨by decide, by decide⟩)
    exact (by rfl : TargetSpecifier.toStringForm
      { method := "POST", path := "/items",
        contentType := "application/json" } =
      "POST /items application/json") ▸ h

/-! ## C10: existing security-scheme validation (corrected) -/

/-- Counterexample to C10 as stated: an existing `GlobusAuth` oauth2
scheme with matching endpoints but an EMPTY scope table is not a
superset of the configured scopes (`resource:all`), yet enrichment
succeeds and leaves it in place instead of raising the claimed
mismatch error — the superset check is skipped when either scope table
is empty. -/
theorem c10_counterexample :
    mkInject cfgScopesX authUrlC6 = .ok stX ∧
    schemeScopeKeys stX.securityScheme = ["resource:all"] ∧
    schemeScopeKeys existingX = [] ∧
    enrich stX docX = .ok docX := by
  exact ⟨rfl, rfl, rfl, rfl⟩

/-- C10 (amended): when a scheme already exists under the enricher's
name, a compatible one (same type, same authorization-code endpoints,
and — whenever both scope tables are non-empty — existing scope keys a
superset of the configured ones) is left in place unchanged, and an
incompatible one makes the components update raise the mismatch error
instead of overwriting; `verify_contained_in` succeeds exactly on the
compatibility predicate. -/
theorem c10_security_scheme_validation (st : InjectState) (doc : OpenAPI)
    (comps : Components) (ss : List (String × SchemeOrRef)) (ex : SchemeOrRef)
    (hc : doc.components = some comps)
    (hss : comps.securitySchemes = some ss)
    (hex : lookupS ss "GlobusAuth" = some ex) :
    (verifyContainedIn st.securityScheme ex = .ok () →
      updateComponents st doc = .ok doc) ∧
    (∀ e, verifyContainedIn st.securityScheme ex = .error e →
      updateComponents st doc = .error e) ∧
    (verifyContainedIn st.securityScheme ex = .ok () ↔
      SchemeCompatible st.securityScheme ex) := by
  have hred : ∀ r : Except String Unit,
      verifyContainedIn st.securityScheme ex = r →
      updateComponents st doc =
        (r.bind (fun _ => .ok doc) : Except String OpenAPI) := by
    intro r hr
    unfold updateComponents
    rw [hc]
    simp only [Option.getD]
    rw [hss]
    simp only [Option.getD]
    rw [hex]
    simp only
    rw [hr]
    cases r with
    | error e => rfl
    | ok u =>
      cases u
      have hcomps : { comps with securitySchemes := some ss } = comps := by
        obtain ⟨csch, css⟩ := comps
        simp only at hss
        rw [← hss]
      have hdoc : { doc with components := some comps } = doc := by
        obtain ⟨dsrv, dpth, dcmp⟩ := doc
        simp only at hc
        rw [← hc]
      rw [hcomps, hdoc]
      rfl
  refine ⟨fun hok => by simpa using hred _ hok,
    fun e herr => by simpa using hred _ herr, ?_⟩
  constructor
  · intro hok
    unfold verifyContainedIn at hok
    cases ex with
    | reference r => exact absurd hok (by simp [verifyContainedIn])
    | scheme o =>
      simp only at hok
      by_cases hty : st.securityScheme.type ≠ o.type
      · rw [if_pos hty] at hok; exact absurd hok (by simp)
      · rw [if_neg hty] at hok
        push_neg at hty
        cases hof : o.flows with
        | none => rw [hof] at hok; exact absurd hok (by simp)
        | some oflows =>
          rw [hof] at hok
          cases hsf : st.securityScheme.flows with
          | none => rw [hsf] at hok; exact absurd hok (by simp)
          | some sflows =>
            rw [hsf] at hok
            simp only at hok
            cases hoc : oflows.authorizationCode with
            | none => rw [hoc] at hok; exact absurd hok (by simp)
            | some ocode =>
              rw [hoc] at hok
              cases hsc : sflows.authorizationCode with
              | none => rw [hsc] at hok; exact absurd hok (by simp)
              | some scode =>
                rw [hsc] at hok
                simp only at hok
                by_cases hau : ocode.authorizationUrl ≠ scode.authorizationUrl
                · rw [if_pos hau] at hok; exact absurd hok (by simp)
                · rw [if_neg hau] at hok
                  push_neg at hau
                  by_cases htu : ocode.tokenUrl ≠ scode.tokenUrl
                  · rw [if_pos htu] at hok; exact absurd hok (by simp)
                  · rw [if_neg htu] at hok
                    push_neg at htu
                    refine ⟨o, oflows, sflows, ocode, scode, rfl, hty, hof,
                      hsf, hoc, hsc, hau, htu, ?_⟩
                    intro hone htwo k hk
                    by_cases hcond : ocode.scopes ≠ [] ∧ scode.scopes ≠ []
                    · rw [if_pos hcond] at hok
                      cases hfil : (scode.scopes.map Prod.fst).filter
                          (fun x => x ∉ ocode.scopes.map Prod.fst) with
                      | nil =>
                        have := List.filter_eq_nil_iff.mp hfil k hk
                        simpa using this
                      | cons a l =>
                        rw [hfil] at hok
                        exact absurd hok (by simp)
                    · exact absurd ⟨hone, htwo⟩ hcond
  · intro hcomp
    obtain ⟨o, oflows, sflows, ocode, scode, hexo, hty, hof, hsf, hoc, hsc,
      hau, htu, hsup⟩ := hcomp
    subst hexo
    unfold verifyContainedIn
    simp only
    rw [if_neg (by simp [hty]), hof, hsf]
    simp only
    rw [hoc, hsc]
    simp only
    rw [if_neg (by simp [hau]), if_neg (by simp [htu])]
    by_cases hcond : ocode.scopes ≠ [] ∧ scode.scopes ≠ []
    · rw [if_pos hcond]
      have hfil : (scode.scopes.map Prod.fst).filter
          (fun x => x ∉ ocode.scopes.map Prod.fst) = [] := by
        apply List.filter_eq_nil_iff.mpr
        intro k hk
        simpa using hsup hcond.1 hcond.2 k hk
      rw [hfil]
    · rw [if_neg hcond]

/-- Witness for C10 (amended): a document whose existing `GlobusAuth`
scheme is exactly the configured one passes validation and is left in
place, via `c10_security_scheme_validation`. -/
theorem c10_security_scheme_validation_witness :
    verifyContainedIn stX.securityScheme
        (.scheme (mkGlobusAuthScheme authUrlC6 cfgScopesX)) = .ok () ∧
    updateComponents stX docXok = .ok docXok := by
  have h := c10_security_scheme_validation stX docXok
    { schemas := none,
      securitySchemes :=
        some [("GlobusAuth", .scheme (mkGlobusAuthScheme authUrlC6 cfgScopesX))] }
    [("GlobusAuth", .scheme (mkGlobusAuthScheme authUrlC6 cfgScopesX))]
    (.scheme (mkGlobusAuthScheme authUrlC6 cfgScopesX)) rfl rfl rfl
  exact ⟨rfl, h.1 rfl⟩

/-! ## C6: idempotent enrichment -/

/-- Appending a fresh key to an association list makes it findable. -/
theorem lookupS_append_single {α : Type} (l : List (String × α)) (k : String)
    (v : α) (h : lookupS l k = none) : lookupS (l ++ [(k, v)]) k = some v := by
  induction l with
  | nil => simp [lookupS]
  | cons p t ih =>
    obtain ⟨k', v'⟩ := p
    simp only [lookupS, List.cons_append] at h ⊢
    by_cases hk : k' = k
    · rw [if_pos hk] at h; cases h
    · rw [if_neg hk] at h ⊢
      exact ih h

/-- A freshly inserted single-scope `GlobusAuth` requirement registers
its scope. -/
theorem registeredScopes_insert (s : String)
    (sec : List SecurityRequirement) :
    registeredScopes (([("GlobusAuth", [s])] : SecurityRequirement) :: sec) =
      s :: registeredScopes sec := by
  rfl

/-- `insertScope` records the inserted scope. -/
theorem insertScope_fst_mem (acc : List String × List SecurityRequirement)
    (s : String) : s ∈ (insertScope acc s).1 := by
  unfold insertScope
  by_cases h : s ∈ acc.1
  · rw [if_pos h]; exact h
  · rw [if_neg h]; exact List.mem_cons_self s acc.1

/-- `insertScope` keeps previously recorded scopes. -/
theorem insertScope_fst_mono (acc : List String × List SecurityRequirement)
    (s x : String) (hx : x ∈ acc.1) : x ∈ (insertScope acc s).1 := by
  unfold insertScope
  by_cases h : s ∈ acc.1
  · rw [if_pos h]; exact hx
  · rw [if_neg h]; exact List.mem_cons_of_mem s hx

/-- `insertScope` only prepends to the security list. -/
theorem insertScope_snd_suffix (acc : List String × List SecurityRequirement)
    (s : String) : ∃ pre, (insertScope acc s).2 = pre ++ acc.2 := by
  unfold insertScope
  by_cases h : s ∈ acc.1
  · rw [if_pos h]; exact ⟨[], rfl⟩
  · rw [if_neg h]
    exact ⟨[[("GlobusAuth", [s])]], rfl⟩

/-- `insertScope` preserves the invariant that every recorded scope
appears as a well-formed single-scope requirement. -/
theorem insertScope_reg (acc : List String × List SecurityRequirement)
    (s : String) (h : ∀ x ∈ acc.1, x ∈ registeredScopes acc.2) :
    ∀ x ∈ (insertScope acc s).1, x ∈ registeredScopes (insertScope acc s).2 := by
  unfold insertScope
  by_cases hs : s ∈ acc.1
  · rw [if_pos hs]; exact h
  · rw [if_neg hs]
    intro x hx
    simp only at hx ⊢
    rw [registeredScopes_insert]
    rcases List.mem_cons.mp hx with rfl | hx'
    · exact List.mem_cons_self x _
    · exact List.mem_cons_of_mem _ (h x hx')

/-- `insertScope` is the identity on already-registered scopes. -/
theorem insertScope_noop (acc : List String × List SecurityRequirement)
    (s : String) (h : s ∈ acc.1) : insertScope acc s = acc := by
  unfold insertScope
  rw [if_pos h]

/-- `insertScopes` keeps previously recorded scopes. -/
theorem insertScopes_fst_mono (l : List String) :
    ∀ acc x, x ∈ acc.1 → x ∈ (insertScopes l acc).1 := by
  induction l with
  | nil => intro acc x hx; exact hx
  | cons a t ih =>
    intro acc x hx
    exact ih (insertScope acc a) x (insertScope_fst_mono acc a x hx)

/-- `insertScopes` records every inserted scope. -/
theorem insertScopes_fst_mem (l : List String) :
    ∀ acc s, s ∈ l → s ∈ (insertScopes l acc).1 := by
  induction l with
  | nil => intro acc s hs; cases hs
  | cons a t ih =>
    intro acc s hs
    rcases List.mem_cons.mp hs with rfl | hs'
    · exact insertScopes_fst_mono t (insertScope acc s) s
        (insertScope_fst_mem acc s)
    · exact ih (insertScope acc a) s hs'

/-- `insertScopes` only prepends to the security list. -/
theorem insertScopes_snd_suffix (l : List String) :
    ∀ acc, ∃ pre, (insertScopes l acc).2 = pre ++ acc.2 := by
  induction l with
  | nil => intro acc; exact ⟨[], rfl⟩
  | cons a t ih =>
    intro acc
    obtain ⟨pre1, h1⟩ := insertScope_snd_suffix acc a
    obtain ⟨pre2, h2⟩ := ih (insertScope acc a)
    exact ⟨pre2 ++ pre1, by
      show (insertScopes t (insertScope acc a)).2 = _
      rw [h2, h1, List.append_assoc]⟩

/-- `insertScopes` preserves the registration invariant. -/
theorem insertScopes_reg (l : List String) :
    ∀ acc, (∀ x ∈ acc.1, x ∈ registeredScopes acc.2) →
      ∀ x ∈ (insertScopes l acc).1,
        x ∈ registeredScopes (insertScopes l acc).2 := by
  induction l with
  | nil => intro acc h; exact h
  | cons a t ih =>
    intro acc h
    exact ih (insertScope acc a) (insertScope_reg acc a h)

/-- `insertScopes` is the identity when every scope is already
registered. -/
theorem insertScopes_noop (l : List String) :
    ∀ acc, (∀ s ∈ l, s ∈ acc.1) → insertScopes l acc = acc := by
  induction l with
  | nil => intro acc _; rfl
  | cons a t ih =>
    intro acc h
    show insertScopes t (insertScope acc a) = acc
    rw [insertScope_noop acc a (h a (List.mem_cons_self a t))]
    exact ih acc (fun s hs => h s (List.mem_cons_of_mem a hs))

/-- `insertTargetScopes` keeps previously recorded scopes. -/
theorem insertTargetScopes_fst_mono
    (tss : List (TargetSpecifier × List String)) (p m : String) :
    ∀ acc x, x ∈ acc.1 → x ∈ (insertTargetScopes tss p m acc).1 := by
  induction tss with
  | nil => intro acc x hx; exact hx
  | cons f t ih =>
    intro acc x hx
    show x ∈ (insertTargetScopes t p m
      (if f.1.path = p ∧ f.1.method = m then insertScopes f.2 acc else acc)).1
    by_cases hc : f.1.path = p ∧ f.1.method = m
    · rw [if_pos hc]
      exact ih (insertScopes f.2 acc) x (insertScopes_fst_mono f.2 acc x hx)
    · rw [if_neg hc]
      exact ih acc x hx

/-- Scopes of a matching targeted entry end up recorded. -/
theorem insertTargetScopes_fst_mem
    (tss : List (TargetSpecifier × List String)) (p m : String) :
    ∀ acc e, e ∈ tss → e.1.path = p → e.1.method = m →
      ∀ s ∈ e.2, s ∈ (insertTargetScopes tss p m acc).1 := by
  induction tss with
  | nil => intro acc e he; cases he
  | cons f t ih =>
    intro acc e he hp hm s hs
    show s ∈ (insertTargetScopes t p m
      (if f.1.path = p ∧ f.1.method = m then insertScopes f.2 acc else acc)).1
    rcases List.mem_cons.mp he with rfl | he'
    · rw [if_pos ⟨hp, hm⟩]
      exact insertTargetScopes_fst_mono t p m (insertScopes e.2 acc) s
        (insertScopes_fst_mem e.2 acc s hs)
    · by_cases hc : f.1.path = p ∧ f.1.method = m
      · rw [if_pos hc]
        exact ih (insertScopes f.2 acc) e he' hp hm s hs
      · rw [if_neg hc]
        exact ih acc e he' hp hm s hs

/-- `insertTargetScopes` only prepends to the security list. -/
theorem insertTargetScopes_snd_suffix
    (tss : List (TargetSpecifier × List String)) (p m : String) :
    ∀ acc, ∃ pre, (insertTargetScopes tss p m acc).2 = pre ++ acc.2 := by
  induction tss with
  | nil => intro acc; exact ⟨[], rfl⟩
  | cons f t ih =>
    intro acc
    show ∃ pre, (insertTargetScopes t p m
      (if f.1.path = p ∧ f.1.method = m then insertScopes f.2 acc else acc)).2 =
        pre ++ acc.2
    by_cases hc : f.1.path = p ∧ f.1.method = m
    · rw [if_pos hc]
      obtain ⟨pre1, h1⟩ := insertScopes_snd_suffix f.2 acc
      obtain ⟨pre2, h2⟩ := ih (insertScopes f.2 acc)
      exact ⟨pre2 ++ pre1, by rw [h2, h1, List.append_assoc]⟩
    · rw [if_neg hc]
      exact ih acc

/-- `insertTargetScopes` preserves the registration invariant. -/
theorem insertTargetScopes_reg
    (tss : List (TargetSpecifier × List String)) (p m : String) :
    ∀ acc, (∀ x ∈ acc.1, x ∈ registeredScopes acc.2) →
      ∀ x ∈ (insertTargetScopes tss p m acc).1,
        x ∈ registeredScopes (insertTargetScopes tss p m acc).2 := by
  induction tss with
  | nil => intro acc h; exact h
  | cons f t ih =>
    intro acc h
    show ∀ x ∈ (insertTargetScopes t p m
        (if f.1.path = p ∧ f.1.method = m then insertScopes f.2 acc else acc)).1,
      x ∈ registeredScopes (insertTargetScopes t p m
        (if f.1.path = p ∧ f.1.method = m then insertScopes f.2 acc else acc)).2
    by_cases hc : f.1.path = p ∧ f.1.method = m
    · rw [if_pos hc]
      exact ih (insertScopes f.2 acc) (insertScopes_reg f.2 acc h)
    · rw [if_neg hc]
      exact ih acc h

/-- `insertTargetScopes` is the identity when every matching scope is
already registered. -/
theorem insertTargetScopes_noop
    (tss : List (TargetSpecifier × List String)) (p m : String) :
    ∀ acc, (∀ e ∈ tss, e.1.path = p → e.1.method = m →
        ∀ s ∈ e.2, s ∈ acc.1) →
      insertTargetScopes tss p m acc = acc := by
  induction tss with
  | nil => intro acc _; rfl
  | cons f t ih =>
    intro acc h
    show insertTargetScopes t p m
      (if f.1.path = p ∧ f.1.method = m then insertScopes f.2 acc else acc) = acc
    by_cases hc : f.1.path = p ∧ f.1.method = m
    · rw [if_pos hc]
      rw [insertScopes_noop f.2 acc
        (fun s hs => h f (List.mem_cons_self f t) hc.1 hc.2 s hs)]
      exact ih acc (fun e he => h e (List.mem_cons_of_mem f he))
    · rw [if_neg hc]
      exact ih acc (fun e he => h e (List.mem_cons_of_mem f he))

/-- Every scope recorded by the two insertion passes appears as a
single-scope `GlobusAuth` requirement in the resulting security list. -/
theorem opAcc_reg (st : InjectState) (p m : String) (op : Operation) :
    ∀ x ∈ (opAcc st p m op).1, x ∈ registeredScopes (opAcc st p m op).2 := by
  unfold opAcc
  apply insertScopes_reg
  apply insertTargetScopes_reg
  intro x hx
  exact hx

/-- The two insertion passes only prepend to the security list. -/
theorem opAcc_snd_suffix (st : InjectState) (p m : String) (op : Operation) :
    ∃ pre, (opAcc st p m op).2 = pre ++ op.security.getD [] := by
  unfold opAcc
  obtain ⟨pre1, h1⟩ := insertTargetScopes_snd_suffix st.targetSpecifierScopes
    p m (registeredScopes (op.security.getD []), op.security.getD [])
  obtain ⟨pre2, h2⟩ := insertScopes_snd_suffix st.wildcardScopes
    (insertTargetScopes st.targetSpecifierScopes p m
      (registeredScopes (op.security.getD []), op.security.getD []))
  exact ⟨pre2 ++ pre1, by rw [h2, h1, List.append_assoc]⟩

/-- A matching targeted scope is recorded by the passes. -/
theorem opAcc_target_mem (st : InjectState) (p m : String) (op : Operation)
    (e : TargetSpecifier × List String) (he : e ∈ st.targetSpecifierScopes)
    (hp : e.1.path = p) (hm : e.1.method = m) (s : String) (hs : s ∈ e.2) :
    s ∈ (opAcc st p m op).1 := by
  unfold opAcc
  apply insertScopes_fst_mono
  exact insertTargetScopes_fst_mem st.targetSpecifierScopes p m _ e he hp hm s hs

/-- A wildcard scope is recorded by the passes. -/
theorem opAcc_wildcard_mem (st : InjectState) (p m : String) (op : Operation)
    (s : String) (hs : s ∈ st.wildcardScopes) : s ∈ (opAcc st p m op).1 := by
  unfold opAcc
  exact insertScopes_fst_mem st.wildcardScopes _ s hs

/-- The security list of an updated operation is exactly the list the
passes produced. -/
theorem updateOperation_security (st : InjectState) (p m : String)
    (op : Operation) :
    (updateOperation st p m op).security.getD [] = (opAcc st p m op).2 := by
  unfold updateOperation
  cases h : (opAcc st p m op).2 with
  | nil =>
    obtain ⟨pre, hpre⟩ := opAcc_snd_suffix st p m op
    rw [h] at hpre
    have hsec : op.security.getD [] = [] := by
      cases pre with
      | nil => exact hpre.symm
      | cons a t => cases hpre
    simp [hsec]
  | cons s rest =>
    simp only [Option.getD]

/-- When every applicable scope is already registered on the operation,
the update leaves it untouched. -/
theorem updateOperation_noop (st : InjectState) (p m : String)
    (op : Operation)
    (h1 : ∀ e ∈ st.targetSpecifierScopes, e.1.path = p → e.1.method = m →
      ∀ s ∈ e.2, s ∈ registeredScopes (op.security.getD []))
    (h2 : ∀ s ∈ st.wildcardScopes,
      s ∈ registeredScopes (op.security.getD [])) :
    updateOperation st p m op = op := by
  have hacc : opAcc st p m op =
      (registeredScopes (op.security.getD []), op.security.getD []) := by
    unfold opAcc
    rw [insertTargetScopes_noop st.targetSpecifierScopes p m _
      (fun e he hp hm s hs => h1 e he hp hm s hs)]
    exact insertScopes_noop st.wildcardScopes _ (fun s hs => h2 s hs)
  unfold updateOperation
  rw [hacc]
  obtain ⟨rb, sec, dm⟩ := op
  cases sec with
  | none => rfl
  | some l =>
    cases l with
    | nil => rfl
    | cons s rest => rfl

/-- `_validate_and_update_operation` is idempotent on each operation. -/
theorem updateOperation_idem (st : InjectState) (p m : String)
    (op : Operation) :
    updateOperation st p m (updateOperation st p m op) =
      updateOperation st p m op := by
  apply updateOperation_noop
  · intro e he hp hm s hs
    rw [updateOperation_security]
    exact opAcc_reg st p m op s (opAcc_target_mem st p m op e he hp hm s hs)
  · intro s hs
    rw [updateOperation_security]
    exact opAcc_reg st p m op s (opAcc_wildcard_mem st p m op s hs)

/-- The per-path-item pass is idempotent. -/
theorem updatePathItem_idem (st : InjectState) (p : String)
    (item : PathItem) :
    updatePathItem st p (updatePathItem st p item) =
      updatePathItem st p item := by
  have hf : ∀ (mth : String) (o : Option Operation),
      (o.map (updateOperation st p mth)).map (updateOperation st p mth) =
        o.map (updateOperation st p mth) := by
    intro mth o
    cases o with
    | none => rfl
    | some x =>
      simp only [Option.map]
      rw [updateOperation_idem]
  simp only [updatePathItem, hf]

/-- The whole-paths pass is idempotent. -/
theorem mutatePaths_idem (st : InjectState)
    (x : Option (List (String × PathItem))) :
    mutatePaths st (mutatePaths st x) = mutatePaths st x := by
  cases x with
  | none => rfl
  | some ps =>
    simp only [mutatePaths, Option.map, List.map_map]
    congr 1
    apply List.map_congr_left
    intro p _
    simp only [Function.comp]
    rw [updatePathItem_idem]

/-- The constructed Globus Auth scheme always validates against
itself. -/
theorem verifyContainedIn_self (u : String)
    (cfg : List (String × ScopeConfig)) :
    verifyContainedIn (mkGlobusAuthScheme u cfg)
      (.scheme (mkGlobusAuthScheme u cfg)) = .ok () := by
  simp only [verifyContainedIn, mkGlobusAuthScheme]
  rw [if_neg (by simp)]
  rw [if_neg (by simp), if_neg (by simp)]
  by_cases h : (cfg.map fun p => (p.1, p.2.description.getD "")) ≠ [] ∧
      (cfg.map fun p => (p.1, p.2.description.getD "")) ≠ []
  · rw [if_pos h]
    have hfil : ((cfg.map fun p => (p.1, p.2.description.getD "")).map
        Prod.fst).filter
        (fun k => k ∉ ((cfg.map fun p => (p.1, p.2.description.getD "")).map
          Prod.fst)) = [] := by
      apply List.filter_eq_nil_iff.mpr
      intro k hk
      simpa using hk
    rw [hfil]
  · rw [if_neg h]

/-- A successfully built enricher state carries the constructed
scheme. -/
theorem mkInject_ok_scheme (scopes : List (String × ScopeConfig))
    (authUrl : String) (st : InjectState)
    (h : mkInject scopes authUrl = .ok st) :
    st.securityScheme = mkGlobusAuthScheme authUrl scopes := by
  unfold mkInject at h
  cases hii : initScopeIndices scopes [] [] with
  | error e => rw [hii] at h; cases h
  | ok wm =>
    obtain ⟨w, m⟩ := wm
    rw [hii] at h
    cases h
    rfl

/-- A second components pass on a document whose components equal a
successful first pass's output succeeds without changing anything. -/
theorem updateComponents_stable (st : InjectState)
    (hself : verifyContainedIn st.securityScheme
      (.scheme st.securityScheme) = .ok ())
    (doc d1 d2 : OpenAPI)
    (h : updateComponents st doc = .ok d1)
    (hc2 : d2.components = d1.components) :
    updateComponents st d2 = .ok d2 := by
  simp only [updateComponents] at h
  cases hex : lookupS
      ((doc.components.getD {}).securitySchemes.getD []) "GlobusAuth" with
  | some ex =>
    simp only [hex] at h
    cases hv : verifyContainedIn st.securityScheme ex with
    | error e => simp [hv] at h
    | ok u =>
      cases u
      simp only [hv, Except.ok.injEq] at h
      subst h
      simp only at hc2
      simp only [updateComponents, hc2, Option.getD_some]
      rw [hex]
      simp only [hv]
      obtain ⟨s2, p2, c2⟩ := d2
      simp only at hc2
      rw [hc2]
  | none =>
    simp only [hex, Except.ok.injEq] at h
    subst h
    simp only at hc2
    simp only [updateComponents, hc2, Option.getD_some]
    rw [lookupS_append_single _ _ _ hex]
    simp only [hself]
    obtain ⟨s2, p2, c2⟩ := d2
    simp only at hc2
    rw [hc2]

/-- C6: for every document and every enrichment configuration the
enricher can be built from, enriching twice equals enriching once — the
second pass validates the already-injected scheme in place and finds
every injected scope already registered, so nothing is duplicated or
re-inserted. -/
theorem c6_enrich_idempotent (scopes : List (String × ScopeConfig))
    (authUrl : String) (st : InjectState) (doc : OpenAPI)
    (hst : mkInject scopes authUrl = .ok st) :
    (enrich st doc).bind (enrich st) = enrich st doc := by
  have hscheme := mkInject_ok_scheme scopes authUrl st hst
  have hself : verifyContainedIn st.securityScheme
      (.scheme st.securityScheme) = .ok () := by
    rw [hscheme]
    exact verifyContainedIn_self authUrl scopes
  unfold enrich mutateSchema
  cases hu : updateComponents st doc with
  | error e => rfl
  | ok d1 =>
    show mutateSchema st { d1 with paths := mutatePaths st d1.paths } = _
    have hst2 : updateComponents st
        { d1 with paths := mutatePaths st d1.paths } =
        .ok { d1 with paths := mutatePaths st d1.paths } :=
      updateComponents_stable st hself doc d1 _ hu rfl
    simp only [mutateSchema, hst2]
    rw [mutatePaths_idem st d1.paths]

/-- Witness for C6: a one-wildcard-scope configuration enriching a
one-operation document, via `c6_enrich_idempotent`. -/
theorem c6_enrich_idempotent_witness :
    mkInject cfgC6 authUrlC6 = .ok stC6 ∧
    (enrich stC6 docC6).bind (enrich stC6) = enrich stC6 docC6 :=
  ⟨rfl, c6_enrich_idempotent cfgC6 authUrlC6 stC6 docC6 rfl⟩

/-! ## C2 and C3: the component-closure work-list -/

/-- A successful lookup is a membership. -/
theorem lookupS_mem {α : Type} (l : List (String × α)) (k : String) (v : α)
    (h : lookupS l k = some v) : (k, v) ∈ l := by
  induction l with
  | nil => cases h
  | cons p t ih =>
    obtain ⟨k', v'⟩ := p
    simp only [lookupS] at h
    by_cases hk : k' = k
    · rw [if_pos hk] at h
      cases h
      subst hk
      exact List.mem_cons_self _ _
    · rw [if_neg hk] at h
      exact List.mem_cons_of_mem _ (ih h)

/-- A key has a lookup value exactly when it is among the keys. -/
theorem lookupS_isSome_iff {α : Type} (l : List (String × α)) (k : String) :
    (∃ v, lookupS l k = some v) ↔ k ∈ l.map Prod.fst := by
  induction l with
  | nil => simp [lookupS]
  | cons p t ih =>
    obtain ⟨k', v'⟩ := p
    simp only [lookupS, List.map_cons, List.mem_cons]
    by_cases hk : k' = k
    · subst hk
      simp
    · rw [if_neg hk]
      rw [ih]
      constructor
      · exact fun h => Or.inr h
      · rintro (rfl | h)
        · exact absurd rfl hk
        · exact h

/-- Every member is bounded by the maximum of a list. -/
theorem le_foldr_max (l : List Nat) (x : Nat) (hx : x ∈ l) :
    x ≤ l.foldr max 0 := by
  induction l with
  | nil => cases hx
  | cons a t ih =>
    rcases List.mem_cons.mp hx with rfl | hx'
    · exact le_max_left _ _
    · exact le_trans (ih hx') (le_max_right _ _)

/-- A reference found inside a stored schema lies in the reference
universe. -/
theorem refs_in_allRefsU (schemas : List (String × Json))
    (seeds : List String) (n : String) (s : Json) (r : String)
    (hlk : lookupS schemas n = some s) (hr : r ∈ findAllRefs s) :
    r ∈ allRefsU schemas seeds := by
  unfold allRefsU
  apply List.mem_append_right
  apply List.mem_flatten.mpr
  exact ⟨findAllRefs s, List.mem_map.mpr ⟨(n, s), lookupS_mem _ _ _ hlk, rfl⟩, hr⟩

/-- The reference list of any stored schema is bounded by
`maxRefLen`. -/
theorem refs_len_le_max (schemas : List (String × Json)) (n : String)
    (s : Json) (hlk : lookupS schemas n = some s) :
    (findAllRefs s).length ≤ maxRefLen schemas := by
  unfold maxRefLen
  apply le_foldr_max
  exact List.mem_map.mpr ⟨(n, s), lookupS_mem _ _ _ hlk, rfl⟩

/-- Lookup after a dict assignment. -/
theorem upsertS_lookup {α : Type} (c : List (String × α)) (k : String)
    (v : α) (key : String) :
    lookupS (upsertS c k v) key = if k = key then some v else lookupS c key := by
  induction c with
  | nil => simp [upsertS, lookupS]
  | cons p t ih =>
    obtain ⟨k', v'⟩ := p
    by_cases hk : k' = k
    · subst hk
      simp only [upsertS, if_pos rfl, lookupS]
      by_cases hkey : k' = key
      · simp only [if_pos hkey]
      · simp only [if_neg hkey]
    · simp only [upsertS, if_neg hk, lookupS]
      by_cases hkey : k' = key
      · have hkne : ¬ k = key := fun he => hk (hkey.trans he.symm)
        simp only [if_pos hkey, if_neg hkne]
      · simp only [if_neg hkey]
        exact ih

/-- The keys after a dict assignment. -/
theorem upsertS_fst_mem {α : Type} (c : List (String × α)) (k : String)
    (v : α) (x : String) :
    x ∈ (upsertS c k v).map Prod.fst ↔ x = k ∨ x ∈ c.map Prod.fst := by
  induction c with
  | nil => simp [upsertS]
  | cons p t ih =>
    obtain ⟨k', v'⟩ := p
    simp only [upsertS]
    by_cases hk : k' = k
    · rw [if_pos hk]
      subst hk
      simp only [List.map_cons, List.mem_cons]
      constructor
      · rintro (rfl | h)
        · exact Or.inl rfl
        · exact Or.inr (Or.inr h)
      · rintro (rfl | rfl | h)
        · exact Or.inl rfl
        · exact Or.inl rfl
        · exact Or.inr h
    · rw [if_neg hk]
      simp only [List.map_cons, List.mem_cons, ih]
      constructor
      · rintro (rfl | rfl | h)
        · exact Or.inr (Or.inl rfl)
        · exact Or.inl rfl
        · exact Or.inr (Or.inr h)
      · rintro (rfl | rfl | h)
        · exact Or.inr (Or.inl rfl)
        · exact Or.inl rfl
        · exact Or.inr (Or.inr h)

/-- A dict assignment keeps the keys duplicate-free. -/
theorem upsertS_keys_nodup {α : Type} (c : List (String × α)) (k : String)
    (v : α) (h : (c.map Prod.fst).Nodup) :
    ((upsertS c k v).map Prod.fst).Nodup := by
  induction c with
  | nil => simp [upsertS]
  | cons p t ih =>
    obtain ⟨k', v'⟩ := p
    simp only [List.map_cons, List.nodup_cons] at h
    simp only [upsertS]
    by_cases hk : k' = k
    · rw [if_pos hk]
      simp only [List.map_cons, List.nodup_cons]
      exact h
    · rw [if_neg hk]
      simp only [List.map_cons, List.nodup_cons]
      refine ⟨?_, ih h.2⟩
      intro hmem
      rcases (upsertS_fst_mem t k v k').mp hmem with rfl | hmem'
      · exact hk rfl
      · exact h.1 hmem'

/-- Removing a fresh element from the unseen set drops its card by
one. -/
theorem card_sdiff_insert_eq (U : Finset String) (P : Finset String)
    (r : String) (hrU : r ∈ U) (hrP : r ∉ P) :
    (U \ insert r P).card + 1 = (U \ P).card := by
  have h1 : U \ insert r P = (U \ P).erase r := by
    ext x
    simp only [Finset.mem_sdiff, Finset.mem_insert, Finset.mem_erase]
    constructor
    · rintro ⟨hxU, hx⟩
      push_neg at hx
      exact ⟨hx.1, hxU, hx.2⟩
    · rintro ⟨hxr, hxU, hxP⟩
      exact ⟨hxU, by push_neg; exact ⟨hxr, hxP⟩⟩
  rw [h1]
  have hmem : r ∈ U \ P := Finset.mem_sdiff.mpr ⟨hrU, hrP⟩
  rw [Finset.card_erase_of_mem hmem]
  have : 1 ≤ (U \ P).card := Finset.card_pos.mpr ⟨r, hmem⟩
  omega

/-- The work-list loop, given enough fuel, terminates with the invariant
re-established on an empty work list. -/
theorem collectLoop_correct (schemas : List (String × Json))
    (seeds : List String) :
    ∀ (fuel : Nat) (work processed : List String)
      (collected : List (String × Json)),
      LoopInv schemas seeds work processed collected →
      loopMeasure schemas seeds work processed < fuel →
      ∃ pf cf, collectLoop schemas fuel work processed collected = some cf ∧
        LoopInv schemas seeds [] pf cf := by
  intro fuel
  induction fuel with
  | zero =>
    intro work processed collected _ hm
    exact absurd hm (Nat.not_lt_zero _)
  | succ n ih =>
    intro work processed collected hinv hm
    cases work with
    | nil => exact ⟨processed, collected, rfl, hinv⟩
    | cons ref rest =>
      by_cases hproc : ref ∈ processed
      · have hinv' : LoopInv schemas seeds rest processed collected := by
          refine ⟨?_, ?_, hinv.procDone, hinv.collSound, ?_, ?_, hinv.keysNodup⟩
          · exact fun r hr => hinv.workU r (List.mem_cons_of_mem ref hr)
          · exact fun r hr => hinv.workJust r (List.mem_cons_of_mem ref hr)
          · intro r hr
            rcases hinv.seedCover r hr with hw | hp
            · rcases List.mem_cons.mp hw with rfl | hw'
              · exact Or.inr hproc
              · exact Or.inl hw'
            · exact Or.inr hp
          · intro n' j hj r hr
            rcases hinv.collCover n' j hj r hr with hw | hp
            · rcases List.mem_cons.mp hw with rfl | hw'
              · exact Or.inr hproc
              · exact Or.inl hw'
            · exact Or.inr hp
        have hm' : loopMeasure schemas seeds rest processed < n := by
          unfold loopMeasure at hm ⊢
          simp only [List.length_cons] at hm
          omega
        obtain ⟨pf, cf, hrun, hfin⟩ := ih rest processed collected hinv' hm'
        refine ⟨pf, cf, ?_, hfin⟩
        simp only [collectLoop, if_pos hproc]
        exact hrun
      · have hrefU : ref ∈ (allRefsU schemas seeds).toFinset :=
          List.mem_toFinset.mpr (hinv.workU ref (List.mem_cons_self ref rest))
        have hrefP : ref ∉ processed.toFinset :=
          fun hc => hproc (List.mem_toFinset.mp hc)
        have hcard := card_sdiff_insert_eq (allRefsU schemas seeds).toFinset
          processed.toFinset ref hrefU hrefP
        have htofin : (ref :: processed).toFinset =
            insert ref processed.toFinset := List.toFinset_cons
        have hmul : (maxRefLen schemas + 1) *
            ((allRefsU schemas seeds).toFinset \ processed.toFinset).card =
            (maxRefLen schemas + 1) *
              ((allRefsU schemas seeds).toFinset \
                insert ref processed.toFinset).card +
              (maxRefLen schemas + 1) := by
          rw [← hcard]
          ring
        have hshift : ∀ x : String, (x ∈ ref :: rest ∨ x ∈ processed) →
            x ∈ rest ∨ x ∈ ref :: processed := by
          intro x hx
          rcases hx with hw | hp
          · rcases List.mem_cons.mp hw with rfl | hw'
            · exact Or.inr (List.mem_cons_self _ _)
            · exact Or.inl hw'
          · exact Or.inr (List.mem_cons_of_mem _ hp)
        have hmskip : loopMeasure schemas seeds rest (ref :: processed) < n := by
          unfold loopMeasure at hm ⊢
          rw [htofin]
          simp only [List.length_cons] at hm
          omega
        cases hext : extractSchemaName ref with
        | none =>
          have hinv' : LoopInv schemas seeds rest (ref :: processed)
              collected := by
            refine ⟨?_, ?_, ?_, hinv.collSound, ?_, ?_, hinv.keysNodup⟩
            · exact fun r hr => hinv.workU r (List.mem_cons_of_mem ref hr)
            · exact fun r hr => hinv.workJust r (List.mem_cons_of_mem ref hr)
            · intro r hr n' s' hext' hlk'
              rcases List.mem_cons.mp hr with rfl | hr'
              · rw [hext] at hext'
                cases hext'
              · exact hinv.procDone r hr' n' s' hext' hlk'
            · exact fun r hr => hshift r (hinv.seedCover r hr)
            · exact fun n' j hj r hr => hshift r (hinv.collCover n' j hj r hr)
          obtain ⟨pf, cf, hrun, hfin⟩ := ih rest (ref :: processed) collected
            hinv' hmskip
          refine ⟨pf, cf, ?_, hfin⟩
          simp only [collectLoop, if_neg hproc, hext]
          exact hrun
        | some name =>
          cases hlk : lookupS schemas name with
          | none =>
            have hinv' : LoopInv schemas seeds rest (ref :: processed)
                collected := by
              refine ⟨?_, ?_, ?_, hinv.collSound, ?_, ?_, hinv.keysNodup⟩
              · exact fun r hr => hinv.workU r (List.mem_cons_of_mem ref hr)
              · exact fun r hr => hinv.workJust r (List.mem_cons_of_mem ref hr)
              · intro r hr n' s' hext' hlk'
                rcases List.mem_cons.mp hr with rfl | hr'
                · rw [hext] at hext'
                  cases hext'
                  rw [hlk] at hlk'
                  cases hlk'
                · exact hinv.procDone r hr' n' s' hext' hlk'
              · exact fun r hr => hshift r (hinv.seedCover r hr)
              · exact fun n' j hj r hr => hshift r (hinv.collCover n' j hj r hr)
            obtain ⟨pf, cf, hrun, hfin⟩ := ih rest (ref :: processed) collected
              hinv' hmskip
            refine ⟨pf, cf, ?_, hfin⟩
            simp only [collectLoop, if_neg hproc, hext, hlk]
            exact hrun
          | some schemaDump =>
            have hreach : ReachableName schemas seeds name := by
              rcases hinv.workJust ref (List.mem_cons_self ref rest) with
                hs | ⟨m, sm, hrm, hlm, hrin⟩
              · exact ReachableName.seed hs hext hlk
              · exact ReachableName.step hrm hlm hrin hext hlk
            have hm' : loopMeasure schemas seeds
                (rest ++ (findAllRefs schemaDump).filter
                  (fun r => r ∉ ref :: processed))
                (ref :: processed) < n := by
              unfold loopMeasure at hm ⊢
              rw [htofin]
              have hlen : ((findAllRefs schemaDump).filter
                  (fun r => r ∉ ref :: processed)).length ≤ maxRefLen schemas :=
                le_trans (List.length_filter_le _ _)
                  (refs_len_le_max schemas name schemaDump hlk)
              simp only [List.length_cons, List.length_append] at hm ⊢
              omega
            have hinv' : LoopInv schemas seeds
                (rest ++ (findAllRefs schemaDump).filter
                  (fun r => r ∉ ref :: processed))
                (ref :: processed)
                (upsertS collected name schemaDump) := by
              refine ⟨?_, ?_, ?_, ?_, ?_, ?_,
                upsertS_keys_nodup _ _ _ hinv.keysNodup⟩
              · intro r hr
                rcases List.mem_append.mp hr with hr' | hr'
                · exact hinv.workU r (List.mem_cons_of_mem ref hr')
                · exact refs_in_allRefsU schemas seeds name schemaDump r hlk
                    (List.mem_of_mem_filter hr')
              · intro r hr
                rcases List.mem_append.mp hr with hr' | hr'
                · exact hinv.workJust r (List.mem_cons_of_mem ref hr')
                · exact Or.inr ⟨name, schemaDump, hreach, hlk,
                    List.mem_of_mem_filter hr'⟩
              · intro r hr n' s' hext' hlk'
                rw [upsertS_lookup]
                rcases List.mem_cons.mp hr with rfl | hr'
                · rw [hext] at hext'
                  cases hext'
                  rw [hlk] at hlk'
                  cases hlk'
                  rw [if_pos rfl]
                · by_cases hn : name = n'
                  · subst hn
                    rw [if_pos rfl]
                    rw [hlk] at hlk'
                    cases hlk'
                    rfl
                  · rw [if_neg hn]
                    exact hinv.procDone r hr' n' s' hext' hlk'
              · intro n' j hj
                rw [upsertS_lookup] at hj
                by_cases hn : name = n'
                · subst hn
                  rw [if_pos rfl] at hj
                  cases hj
                  exact ⟨hlk, hreach⟩
                · rw [if_neg hn] at hj
                  exact hinv.collSound n' j hj
              · intro r hr
                rcases hinv.seedCover r hr with hw | hp
                · rcases List.mem_cons.mp hw with rfl | hw'
                  · exact Or.inr (List.mem_cons_self _ _)
                  · exact Or.inl (List.mem_append_left _ hw')
                · exact Or.inr (List.mem_cons_of_mem _ hp)
              · intro n' j hj r hr
                rw [upsertS_lookup] at hj
                by_cases hn : name = n'
                · subst hn
                  rw [if_pos rfl] at hj
                  cases hj
                  by_cases hrp : r ∈ ref :: processed
                  · exact Or.inr hrp
                  · refine Or.inl (List.mem_append_right _
                      (List.mem_filter.mpr ⟨hr, ?_⟩))
                    simpa using hrp
                · rw [if_neg hn] at hj
                  rcases hinv.collCover n' j hj r hr with hw | hp
                  · rcases List.mem_cons.mp hw with rfl | hw'
                    · exact Or.inr (List.mem_cons_self _ _)
                    · exact Or.inl (List.mem_append_left _ hw')
                  · exact Or.inr (List.mem_cons_of_mem _ hp)
            obtain ⟨pf, cf, hrun, hfin⟩ := ih _ _ _ hinv' hm'
            refine ⟨pf, cf, ?_, hfin⟩
            simp only [collectLoop, if_neg hproc, hext, hlk]
            exact hrun

/-- At the end of the loop the collected keys are exactly the reachable
schema names. -/
theorem finalInv_closure (schemas : List (String × Json))
    (seeds : List String) (pf : List String) (cf : List (String × Json))
    (hinv : LoopInv schemas seeds [] pf cf) :
    ∀ n, (∃ j, lookupS cf n = some j) ↔ ReachableName schemas seeds n := by
  intro n
  constructor
  · rintro ⟨j, hj⟩
    exact (hinv.collSound n j hj).2
  · intro hr
    induction hr with
    | seed hrs hext hlk =>
      rename_i r n' s
      rcases hinv.seedCover r hrs with hw | hp
      · cases hw
      · exact ⟨s, hinv.procDone r hp n' s hext hlk⟩
    | step hrm hlm hrin hext hlk ihm =>
      rename_i m sm r n' s
      obtain ⟨jm, hjm⟩ := ihm
      have hsound := hinv.collSound m jm hjm
      have hjm_eq : jm = sm := by
        rw [hsound.1] at hlm
        cases hlm
        rfl
      subst hjm_eq
      rcases hinv.collCover m jm hjm r hrin with hw | hp
      · cases hw
      · exact ⟨s, hinv.procDone r hp n' s hext hlk⟩

/-- Running the loop from its seeds with the computed fuel bound: it
terminates, the collected keys are exactly the reachable names (without
duplicates), and the values are the table's schemas. -/
theorem collectLoop_run (schemas : List (String × Json))
    (seeds : List String) :
    ∃ cf, collectLoop schemas (fuelBound schemas seeds) seeds [] [] = some cf ∧
      (∀ n, (∃ j, lookupS cf n = some j) ↔ ReachableName schemas seeds n) ∧
      (∀ n v, lookupS cf n = some v → lookupS schemas n = some v) ∧
      (cf.map Prod.fst).Nodup := by
  have hinv : LoopInv schemas seeds seeds [] [] := by
    refine ⟨?_, ?_, ?_, ?_, ?_, ?_, List.nodup_nil⟩
    · intro r hr
      exact List.mem_append_left _ hr
    · intro r hr
      exact Or.inl hr
    · intro r hr
      cases hr
    · intro n j hj
      cases hj
    · intro r hr
      exact Or.inl hr
    · intro n j hj
      cases hj
  have hm : loopMeasure schemas seeds seeds [] < fuelBound schemas seeds := by
    unfold loopMeasure fuelBound
    have hc : ((allRefsU schemas seeds).toFinset \
        (List.toFinset ([] : List String))).card ≤
        (allRefsU schemas seeds).length := by
      calc ((allRefsU schemas seeds).toFinset \
            (List.toFinset ([] : List String))).card
          ≤ (allRefsU schemas seeds).toFinset.card :=
            Finset.card_le_card (Finset.sdiff_subset)
        _ ≤ (allRefsU schemas seeds).length := List.toFinset_card_le _
    have := Nat.mul_le_mul_left (maxRefLen schemas + 1) hc
    omega
  obtain ⟨pf, cf, hrun, hfin⟩ := collectLoop_correct schemas seeds
    (fuelBound schemas seeds) seeds [] [] hinv hm
  exact ⟨cf, hrun, finalInv_closure schemas seeds pf cf hfin,
    fun n v hv => (hfin.collSound n v hv).1, hfin.keysNodup⟩

/-- No schema name is reachable from an empty seed set. -/
theorem reachable_empty_seeds (schemas : List (String × Json)) (n : String)
    (h : ReachableName schemas [] n) : False := by
  induction h with
  | seed hrs _ _ => cases hrs
  | step _ _ _ _ _ ihm => exact ihm

/-- Where `to_dict` puts the `components` key: present exactly when the
target's components field is a truthy value, and then mapped to it. -/
theorem toDict_components_lookup (t : OpenAPITarget) :
    lookupS (objFields t.toDict) "components" =
      match t.components with
      | some c => if pyTruthy c then some c else none
      | none => none := by
  unfold OpenAPITarget.toDict objFields
  cases t.components with
  | none =>
    simp only [lookupS]
    rw [if_neg (by decide), if_neg (by decide), if_neg (by decide),
      if_neg (by decide), if_neg (by decide)]
  | some c =>
    by_cases hc : pyTruthy c
    · simp only [hc, if_true, ite_true]
      simp only [List.cons_append, List.nil_append, lookupS]
      rw [if_neg (by decide), if_neg (by decide), if_neg (by decide),
        if_neg (by decide), if_neg (by decide)]
      simp
    · simp only [hc, if_false, Bool.false_eq_true, ite_false]
      simp only [lookupS]
      rw [if_neg (by decide), if_neg (by decide), if_neg (by decide),
        if_neg (by decide), if_neg (by decide)]

/-- C2: the reduction's `components`, when produced, is
`{"schemas": S}` with `S` holding exactly the schemas of the table
transitively reachable from the serialized operation via
`#/components/schemas/<Name>` pointers (dangling names silently
skipped) and nothing else; and the `components` key appears in the
`to_dict()` output exactly when something was collected. -/
theorem c2_component_closure (spec : OpenAPI) (comps : Components)
    (schemas : List (String × Json)) (op : Operation)
    (h1 : spec.components = some comps) (h2 : comps.schemas = some schemas) :
    ∃ res, collectComponents spec op = some res ∧
      (∀ j, res = some j → ∃ cf : List (String × Json),
        j = .obj [("schemas", .obj cf)] ∧
        (∀ n, n ∈ cf.map Prod.fst ↔
          ReachableName schemas (findAllRefs op.dump) n) ∧
        (∀ n v, lookupS cf n = some v → lookupS schemas n = some v) ∧
        (cf.map Prod.fst).Nodup) ∧
      ((res = none) ↔ ¬ ∃ n, ReachableName schemas (findAllRefs op.dump) n) ∧
      (∀ tgt : OpenAPITarget, tgt.components = res →
        ((∃ c, lookupS (objFields tgt.toDict) "components" = some c) ↔
          ∃ n, ReachableName schemas (findAllRefs op.dump) n)) := by
  cases hrefs : findAllRefs op.dump with
  | nil =>
    have hnor : ¬ ∃ n, ReachableName schemas [] n := by
      rintro ⟨n, hn⟩
      exact reachable_empty_seeds schemas n hn
    have hccf : collectComponents spec op = some none := by
      simp only [collectComponents, h1, h2, hrefs]
    refine ⟨none, hccf, ?_, ⟨fun _ => hnor, fun _ => rfl⟩, ?_⟩
    · intro j hj
      cases hj
    · intro tgt htc
      rw [toDict_components_lookup, htc]
      constructor
      · rintro ⟨c, hc⟩
        cases hc
      · intro h
        exact absurd h hnor
  | cons r rs =>
    obtain ⟨cf, hrun, hclos, hvals, hnodup⟩ := collectLoop_run schemas (r :: rs)
    cases cf with
    | nil =>
      have hnor : ¬ ∃ n, ReachableName schemas (r :: rs) n := by
        rintro ⟨n, hn⟩
        obtain ⟨j, hj⟩ := (hclos n).mpr hn
        cases hj
      have hccf : collectComponents spec op = some none := by
        simp only [collectComponents, h1, h2, hrefs]
        rw [hrun]
      refine ⟨none, hccf, ?_, ⟨fun _ => hnor, fun _ => rfl⟩, ?_⟩
      · intro j hj
        cases hj
      · intro tgt htc
        rw [toDict_components_lookup, htc]
        constructor
        · rintro ⟨c, hc⟩
          cases hc
        · intro h
          exact absurd h hnor
    | cons c0 cs =>
      have hccf : collectComponents spec op =
          some (some (.obj [("schemas", .obj (c0 :: cs))])) := by
        simp only [collectComponents, h1, h2, hrefs]
        rw [hrun]
      have hr0 : ReachableName schemas (r :: rs) c0.1 :=
        (hclos c0.1).mp ((lookupS_isSome_iff (c0 :: cs) c0.1).mpr (by simp))
      refine ⟨some (.obj [("schemas", .obj (c0 :: cs))]), hccf, ?_, ?_, ?_⟩
      · intro j hj
        cases hj
        refine ⟨c0 :: cs, rfl, ?_, hvals, hnodup⟩
        intro n
        exact (lookupS_isSome_iff (c0 :: cs) n).symm.trans (hclos n)
      · constructor
        · intro h
          cases h
        · intro hno
          exact absurd ⟨c0.1, hr0⟩ hno
      · intro tgt htc
        rw [toDict_components_lookup, htc]
        constructor
        · intro _
          exact ⟨c0.1, hr0⟩
        · intro _
          exact ⟨.obj [("schemas", .obj (c0 :: cs))], rfl⟩

/-- Witness for C2: a document where `Item` references `Error` and an
unrelated `Unused` schema exists; the operation references `Item`, via
`c2_component_closure`. -/
theorem c2_component_closure_witness :
    specC2.components = some { schemas := some schemasC2 } ∧
    (∃ res, collectComponents specC2 opC2 = some res ∧
      (∀ j, res = some j → ∃ cf : List (String × Json),
        j = .obj [("schemas", .obj cf)] ∧
        (∀ n, n ∈ cf.map Prod.fst ↔
          ReachableName schemasC2 (findAllRefs opC2.dump) n) ∧
        (∀ n v, lookupS cf n = some v → lookupS schemasC2 n = some v) ∧
        (cf.map Prod.fst).Nodup) ∧
      ((res = none) ↔
        ¬ ∃ n, ReachableName schemasC2 (findAllRefs opC2.dump) n) ∧
      (∀ tgt : OpenAPITarget, tgt.components = res →
        ((∃ c, lookupS (objFields tgt.toDict) "components" = some c) ↔
          ∃ n, ReachableName schemasC2 (findAllRefs opC2.dump) n))) :=
  ⟨rfl, c2_component_closure specC2 { schemas := some schemasC2 } schemasC2
    opC2 rfl rfl⟩

/-- C3: for every document whose schema table contains a reference
cycle, component-closure collection terminates (the fuel bound is never
exhausted, so `collectComponents` always produces a result), and every
schema name reachable from the operation appears exactly once among the
collected keys. -/
theorem c3_cycle_termination (spec : OpenAPI) (comps : Components)
    (schemas : List (String × Json)) (op : Operation)
    (h1 : spec.components = some comps) (h2 : comps.schemas = some schemas)
    (hcyc : HasRefCycle schemas) :
    (collectComponents spec op).isSome = true ∧
    ∃ cf, collectLoop schemas (fuelBound schemas (findAllRefs op.dump))
        (findAllRefs op.dump) [] [] = some cf ∧
      (cf.map Prod.fst).Nodup ∧
      ∀ n, ReachableName schemas (findAllRefs op.dump) n →
        (cf.map Prod.fst).count n = 1 := by
  obtain ⟨cf, hrun, hclos, hvals, hnodup⟩ :=
    collectLoop_run schemas (findAllRefs op.dump)
  refine ⟨?_, cf, hrun, hnodup, ?_⟩
  · cases hrefs : findAllRefs op.dump with
    | nil =>
      simp only [collectComponents, h1, h2, hrefs]
      rfl
    | cons r rs =>
      rw [hrefs] at hrun
      simp only [collectComponents, h1, h2, hrefs]
      rw [hrun]
      cases cf with
      | nil => rfl
      | cons c cs => rfl
  · intro n hn
    have hmem : n ∈ cf.map Prod.fst :=
      (lookupS_isSome_iff cf n).mp ((hclos n).mpr hn)
    exact List.count_eq_one_of_mem hnodup hmem

/-- Witness for C3: the self-referential table where `A` references
itself, reduced from an operation referencing `A`, via
`c3_cycle_termination`. -/
theorem c3_cycle_termination_witness :
    specC3.components = some { schemas := some schemasC3 } ∧
    HasRefCycle schemasC3 ∧
    ((collectComponents specC3 opC3).isSome = true ∧
    ∃ cf, collectLoop schemasC3 (fuelBound schemasC3 (findAllRefs opC3.dump))
        (findAllRefs opC3.dump) [] [] = some cf ∧
      (cf.map Prod.fst).Nodup ∧
      ∀ n, ReachableName schemasC3 (findAllRefs opC3.dump) n →
        (cf.map Prod.fst).count n = 1) := by
  have hcyc : HasRefCycle schemasC3 :=
    ⟨"A", Relation.TransGen.single
      ⟨.obj [("items", .obj [("$ref", .str "#/components/schemas/A")])],
        "#/components/schemas/A",
        .obj [("items", .obj [("$ref", .str "#/components/schemas/A")])],
        rfl, by decide, by decide, rfl⟩⟩
  exact ⟨rfl, hcyc, c3_cycle_termination specC3
    { schemas := some schemasC3 } schemasC3 opC3 rfl rfl hcyc⟩

end GRA
